import Mathlib

set_option linter.unusedVariables false

/-
A shallow embedding of `src/ig/result_list.rs` (the `ResultList` component of
igrep) and proofs of the specification claims about it.

Modelling conventions:
* `Vec<EntryType>` becomes `List EntryType`; `usize` becomes `Nat` (usize
  subtraction in the source is either guarded or saturating; saturating
  subtraction coincides with Nat subtraction).
* Indexing `self.entries[i]` (which panics out of bounds in Rust) is modelled
  by the total function `entryAt` with an arbitrary default; every use proved
  about below is shown to stay in bounds (claim C9), so the default is never
  exercised.
* `ListState` is a newtype over `Option<usize>`; it is modelled directly as
  the `state : Option Nat` field, `select`/`selected` being the identity
  accessors.
* The one panic site reachable through a `Option::unwrap` on data
  (`get_selected_entry`'s line-number unwrap) is modelled explicitly: the
  function returns `Option (Option (String × Nat))`, where the outer `none`
  means the Rust code would panic, `some none` means the Rust function
  returned `None`, and `some (some p)` means it returned `Some p`.
-/

/-- Entry of the flat result sequence: a file `Header` carrying the file name,
or a `Match` carrying a line number and the matched text.  Mirrors the
`EntryType` enum from `src/ig/entries.rs` as consumed by `result_list.rs`
(line numbers are `u64` in the source; no arithmetic is performed on them so
they are modelled as `Nat`). -/
inductive EntryType where
  | Header (name : String)
  | Match (lineNumber : Nat) (text : String)
deriving DecidableEq, Repr

/-- Corresponds to `matches!(e, EntryType::Header(_))`. -/
def EntryType.isHeader : EntryType → Bool
  | .Header _ => true
  | .Match _ _ => false

/-- Corresponds to `matches!(e, EntryType::Match(_, _))`. -/
def EntryType.isMatch : EntryType → Bool
  | .Header _ => false
  | .Match _ _ => true

/-- Total model of `self.entries[i]`: in-bounds it is the list element, out of
bounds (where Rust would panic) it is an arbitrary default entry. -/
def entryAt (es : List EntryType) (i : Nat) : EntryType :=
  (es[i]?).getD (.Header "")

/-- The `ResultList` struct: the flat entry sequence and the selection state
(`ListState` unwrapped to its underlying `Option<usize>`). -/
structure ResultList where
  entries : List EntryType
  state : Option Nat
deriving DecidableEq, Repr

/-- `ResultList::default()`: empty sequence, no selection. -/
def ResultList.new : ResultList := ⟨[], none⟩

/-- `ResultList::is_empty`. -/
def ResultList.is_empty (rl : ResultList) : Bool := rl.entries.isEmpty

/-- `ResultList::is_header(index)`. -/
def ResultList.is_header (rl : ResultList) (index : Nat) : Bool :=
  (entryAt rl.entries index).isHeader

/-- `ResultList::clear`. -/
def ResultList.clear (rl : ResultList) : ResultList := ⟨[], none⟩

/-- `ResultList::iter` (the underlying sequence, in order). -/
def ResultList.iter (rl : ResultList) : List EntryType := rl.entries

/-- `ResultList::get_state`. -/
def ResultList.get_state (rl : ResultList) : Option Nat := rl.state

/-- `ResultList::next_match`. -/
def ResultList.next_match (rl : ResultList) : ResultList :=
  if rl.is_empty then rl
  else
    let index :=
      match rl.state with
      | some i =>
        if i = rl.entries.length - 1 then i
        else
          match entryAt rl.entries (i + 1) with
          | .Header _ => i + 2
          | .Match _ _ => i + 1
      | none => 1
    { rl with state := some index }

/-- `ResultList::previous_match`.  (When `i = 0` the Rust code would read
`entries[i - 1]` with an underflowed index and panic; the Nat model reads
index `0` instead.  The selection invariant keeps `i ≥ 1`, so the divergence
is confined to states the source itself never reaches.) -/
def ResultList.previous_match (rl : ResultList) : ResultList :=
  if rl.is_empty then rl
  else
    let index :=
      match rl.state with
      | some i =>
        if i = 1 then 1
        else
          match entryAt rl.entries (i - 1) with
          | .Header _ => i - 2
          | .Match _ _ => i - 1
      | none => 1
    { rl with state := some index }

/-- The scan loop of `ResultList::next_file`: walk forward from `next_index`;
falling off the last entry resets to the remembered start `i`, a header is
skipped into its first match. -/
def nextFileLoop (es : List EntryType) (i next_index : Nat) : Nat :=
  if next_index = es.length - 1 then i
  else
    match h : entryAt es (next_index + 1) with
    | .Header _ => next_index + 2
    | .Match _ _ => nextFileLoop es i (next_index + 1)
termination_by es.length - next_index
decreasing_by
  have hlt : next_index + 1 < es.length := by
    by_contra hge
    have hnone : es[next_index + 1]? = none := List.getElem?_eq_none (by omega)
    simp [entryAt, hnone] at h
  omega

/-- `ResultList::next_file`. -/
def ResultList.next_file (rl : ResultList) : ResultList :=
  if rl.is_empty then rl
  else
    let index :=
      match rl.state with
      | some i => nextFileLoop rl.entries i i
      | none => 1
    { rl with state := some index }

/-- The scan loop of `ResultList::previous_file`: walk backward from
`next_index`; the first header crossed is stepped over (into the previous
file's block), the second one stops the scan just after itself.  (When
`next_index = 0` the Rust code underflows and panics; the model returns `0`.
The selection invariant keeps the scan at indices ≥ 1.) -/
def prevFileLoop (es : List EntryType) (next_index : Nat) (first_header_visited : Bool) : Nat :=
  if next_index ≤ 1 then next_index
  else
    match entryAt es (next_index - 1) with
    | .Header _ =>
      if first_header_visited then next_index
      else prevFileLoop es (next_index - 2) true
    | .Match _ _ => prevFileLoop es (next_index - 1) first_header_visited
termination_by next_index
decreasing_by
  · omega
  · omega

/-- `ResultList::previous_file`. -/
def ResultList.previous_file (rl : ResultList) : ResultList :=
  if rl.is_empty then rl
  else
    let index :=
      match rl.state with
      | some i => prevFileLoop rl.entries i false
      | none => 1
    { rl with state := some index }

/-- `ResultList::top`. -/
def ResultList.top (rl : ResultList) : ResultList :=
  if rl.is_empty then rl
  else { rl with state := some 1 }

/-- `ResultList::bottom`. -/
def ResultList.bottom (rl : ResultList) : ResultList :=
  if rl.is_empty then rl
  else { rl with state := some (rl.entries.length - 1) }

/-- `ResultList::add_entry`: append the `FileEntry`'s inner vector of entries,
then initialize the selection via `next_match` if there was none. -/
def ResultList.add_entry (rl : ResultList) (entry : List EntryType) : ResultList :=
  let rl1 : ResultList := ⟨rl.entries ++ entry, rl.state⟩
  if rl1.state.isNone then rl1.next_match else rl1

/-- A `FileEntry` as `result_list.rs` receives it: one `Header` followed by at
least one `Match` and nothing else.  (This is the shape `FileEntry::new` in
the neighbouring `entries.rs` produces, per the spec: a header plus one match
per supplied record, only built for a non-empty match list.) -/
def isWellFormedGroup : List EntryType → Bool
  | .Header _ :: rest => !rest.isEmpty && rest.all (fun e => e.isMatch)
  | _ => false

/-- The backward header scan of `ResultList::remove_current_file`:
`for index in (0..selected_index).rev() { if is_header(index) { .. break } }`
with fallback `0`. -/
def findHeaderBack (es : List EntryType) : Nat → Nat
  | 0 => 0
  | n + 1 => if (entryAt es n).isHeader then n else findHeaderBack es n

/-- The forward header scan of `ResultList::remove_current_file`:
`for index in selected_index..len { if is_header(index) { .. break } }`
with fallback `len`. -/
def findHeaderFwd (es : List EntryType) (i : Nat) : Nat :=
  if h : i < es.length then
    if (entryAt es i).isHeader then i else findHeaderFwd es (i + 1)
  else es.length
termination_by es.length - i

/-- `for _ in 0..span { self.entries.remove(current_file_header_index) }`. -/
def removeSpan (es : List EntryType) (i : Nat) : Nat → List EntryType
  | 0 => es
  | n + 1 => removeSpan (es.eraseIdx i) i n

/-- `ResultList::remove_current_file`.  (`state.selected().unwrap()` is
modelled by `Option.getD`; under the invariant a non-empty list always has a
selection, so the default is never used.) -/
def ResultList.remove_current_file (rl : ResultList) : ResultList :=
  if rl.is_empty then rl
  else
    let selected_index := rl.state.getD 0
    let current_file_header_index := findHeaderBack rl.entries selected_index
    let next_file_header_index := findHeaderFwd rl.entries selected_index
    let span := next_file_header_index - current_file_header_index
    let entries1 := removeSpan rl.entries current_file_header_index span
    let state1 : Option Nat :=
      if entries1.isEmpty then none
      else if selected_index ≠ 1 then
        some (max (current_file_header_index - 1) 1)
      else rl.state
    ⟨entries1, state1⟩

/-- `ResultList::is_last_match_in_file`.  (The `unwrap` of the selection and
the index arithmetic are total in the model; claim C9 shows they are in
bounds in every reachable use.) -/
def ResultList.is_last_match_in_file (rl : ResultList) : Bool :=
  let current_index := rl.state.getD 0
  if (entryAt rl.entries (current_index - 1)).isHeader then
    current_index = rl.entries.length - 1
      || (entryAt rl.entries (current_index + 1)).isHeader
  else false

/-- `ResultList::remove_current_entry_and_select_previous`. -/
def ResultList.remove_current_entry_and_select_previous (rl : ResultList) : ResultList :=
  let selected_index := rl.state.getD 0
  let entries1 := rl.entries.eraseIdx selected_index
  let state1 : Option Nat :=
    if selected_index ≥ entries1.length
        || (entryAt entries1 selected_index).isHeader then
      some (selected_index - 1)
    else rl.state
  ⟨entries1, state1⟩

/-- `ResultList::remove_current_entry`. -/
def ResultList.remove_current_entry (rl : ResultList) : ResultList :=
  if rl.is_empty then rl
  else if rl.is_last_match_in_file then rl.remove_current_file
  else rl.remove_current_entry_and_select_previous

/-- The backward scan of `ResultList::get_selected_entry`, from index `i` down
to `0`, remembering the first match's line number.  Result: `none` models a
Rust panic (the `line_number.unwrap()` on `None`), `some none` models the
function returning `None`, `some (some p)` models `Some p`. -/
def selectedScan (es : List EntryType) (i : Nat) (line_number : Option Nat) :
    Option (Option (String × Nat)) :=
  match entryAt es i with
  | .Header name =>
    match line_number with
    | some l => some (some (name, l))
    | none => none
  | .Match number _ =>
    let line_number1 := if line_number.isNone then some number else line_number
    match i with
    | 0 => some none
    | j + 1 => selectedScan es j line_number1

/-- `ResultList::get_selected_entry` (see `selectedScan` for the encoding of
the panic/`None`/`Some` outcomes). -/
def ResultList.get_selected_entry (rl : ResultList) : Option (Option (String × Nat)) :=
  match rl.state with
  | some i => selectedScan rl.entries i none
  | none => some none

/-- `ResultList::get_current_match_index`. -/
def ResultList.get_current_match_index (rl : ResultList) : Nat :=
  match rl.state with
  | some selected =>
    ((rl.entries.take selected).filter (fun e => e.isMatch)).length + 1
  | none => 0

/-- `ResultList::get_number_of_matches`. -/
def ResultList.get_number_of_matches (rl : ResultList) : Nat :=
  (rl.entries.filter (fun e => e.isMatch)).length

/-- `ResultList::get_number_of_file_entries`. -/
def ResultList.get_number_of_file_entries (rl : ResultList) : Nat :=
  (rl.entries.filter (fun e => e.isHeader)).length

/-- The block structure of the entry sequence, stated pointwise: when
non-empty the sequence starts with a header, and every header is immediately
followed, within bounds, by a non-header.  (Together these say the sequence
splits into (Header, Match+) blocks; see `Blocks` and the equivalence proved
below.) -/
structure BlockInv (es : List EntryType) : Prop where
  head : es ≠ [] → (entryAt es 0).isHeader = true
  succ : ∀ i, i < es.length → (entryAt es i).isHeader = true →
    i + 1 < es.length ∧ (entryAt es (i + 1)).isHeader = false

/-- The full data-model invariant of a `ResultList`: the selection is `none`
exactly on the empty sequence, any selected index is in bounds and rests on a
`Match`, and the entries satisfy the block structure. -/
structure ResultList.Inv (rl : ResultList) : Prop where
  selNone : rl.state = none ↔ rl.entries = []
  selBound : ∀ i, rl.state = some i → i < rl.entries.length
  selMatch : ∀ i, rl.state = some i → (entryAt rl.entries i).isMatch = true
  blocks : BlockInv rl.entries

/-- Executable version of `BlockInv`. -/
def blockCheck (es : List EntryType) : Bool :=
  (es.isEmpty || (entryAt es 0).isHeader) &&
    (List.range es.length).all fun i =>
      !(entryAt es i).isHeader ||
        (decide (i + 1 < es.length) && !(entryAt es (i + 1)).isHeader)

/-- Executable version of `ResultList.Inv`. -/
def ResultList.invCheck (rl : ResultList) : Bool :=
  (match rl.state with
   | none => rl.entries.isEmpty
   | some i => decide (i < rl.entries.length) && (entryAt rl.entries i).isMatch) &&
    blockCheck rl.entries

/-- Decomposition of an entry sequence into contiguous (Header, Match+)
blocks: empty, or one header followed by a non-empty run of matches and
another such decomposition. -/
inductive Blocks : List EntryType → Prop where
  | nil : Blocks []
  | block (name : String) (ms rest : List EntryType) : ms ≠ [] →
      (∀ e ∈ ms, e.isMatch = true) → Blocks rest →
      Blocks (.Header name :: (ms ++ rest))

/-- The states of `ResultList` reachable from `ResultList::default()` through
the public interface, where every appended `FileEntry` is a well-formed group
(one header, then at least one match). -/
inductive Reachable : ResultList → Prop where
  | new : Reachable ResultList.new
  | add_entry {rl : ResultList} {g : List EntryType} : Reachable rl →
      isWellFormedGroup g = true → Reachable (rl.add_entry g)
  | clear {rl : ResultList} : Reachable rl → Reachable rl.clear
  | next_match {rl : ResultList} : Reachable rl → Reachable rl.next_match
  | previous_match {rl : ResultList} : Reachable rl → Reachable rl.previous_match
  | next_file {rl : ResultList} : Reachable rl → Reachable rl.next_file
  | previous_file {rl : ResultList} : Reachable rl → Reachable rl.previous_file
  | top {rl : ResultList} : Reachable rl → Reachable rl.top
  | bottom {rl : ResultList} : Reachable rl → Reachable rl.bottom
  | remove_current_entry {rl : ResultList} : Reachable rl →
      Reachable rl.remove_current_entry
  | remove_current_file {rl : ResultList} : Reachable rl →
      Reachable rl.remove_current_file

/-- One application of a public operation, as enumerated by claim C1. -/
inductive PublicOp : ResultList → ResultList → Prop where
  | next_match (rl : ResultList) : PublicOp rl rl.next_match
  | previous_match (rl : ResultList) : PublicOp rl rl.previous_match
  | next_file (rl : ResultList) : PublicOp rl rl.next_file
  | previous_file (rl : ResultList) : PublicOp rl rl.previous_file
  | top (rl : ResultList) : PublicOp rl rl.top
  | bottom (rl : ResultList) : PublicOp rl rl.bottom
  | add_entry (rl : ResultList) (g : List EntryType) :
      isWellFormedGroup g = true → PublicOp rl (rl.add_entry g)
  | remove_current_entry (rl : ResultList) : PublicOp rl rl.remove_current_entry
  | remove_current_file (rl : ResultList) : PublicOp rl rl.remove_current_file

/-! ### Basic facts about entries and indexing -/

theorem EntryType.isMatch_eq_not_isHeader (e : EntryType) : e.isMatch = !e.isHeader := by
  cases e <;> rfl

theorem entryAt_oob {es : List EntryType} {i : Nat} (h : es.length ≤ i) :
    entryAt es i = .Header "" := by
  simp [entryAt, List.getElem?_eq_none h]

theorem isMatch_entryAt_lt {es : List EntryType} {i : Nat}
    (h : (entryAt es i).isMatch = true) : i < es.length := by
  by_contra hge
  rw [entryAt_oob (by omega)] at h
  simp [EntryType.isMatch] at h

theorem entryAt_append_left {es fs : List EntryType} {i : Nat} (h : i < es.length) :
    entryAt (es ++ fs) i = entryAt es i := by
  simp [entryAt, List.getElem?_append, h]

theorem entryAt_append_right {es fs : List EntryType} {i : Nat} (h : es.length ≤ i) :
    entryAt (es ++ fs) i = entryAt fs (i - es.length) := by
  simp [entryAt, List.getElem?_append_right h]

theorem entryAt_drop (es : List EntryType) (n i : Nat) :
    entryAt (es.drop n) i = entryAt es (n + i) := by
  simp [entryAt, List.getElem?_drop]

theorem entryAt_take {es : List EntryType} {n i : Nat} (h : i < n) :
    entryAt (es.take n) i = entryAt es i := by
  simp [entryAt, List.getElem?_take, h]

theorem entryAt_cons_zero (e : EntryType) (es : List EntryType) :
    entryAt (e :: es) 0 = e := by simp [entryAt]

theorem entryAt_cons_succ (e : EntryType) (es : List EntryType) (i : Nat) :
    entryAt (e :: es) (i + 1) = entryAt es i := by
  simp [entryAt]

theorem isMatch_of_not_isHeader {e : EntryType} (h : e.isHeader = false) :
    e.isMatch = true := by
  cases e with
  | Header name => simp [EntryType.isHeader] at h
  | Match n t => rfl

theorem isHeader_false_of_isMatch {e : EntryType} (h : e.isMatch = true) :
    e.isHeader = false := by
  cases e with
  | Header name => simp [EntryType.isMatch] at h
  | Match n t => rfl

/-! ### Soundness of the executable invariant checks -/

theorem blockCheck_sound {es : List EntryType} (h : blockCheck es = true) :
    BlockInv es := by
  unfold blockCheck at h
  simp only [Bool.and_eq_true, Bool.or_eq_true, List.all_eq_true, List.mem_range,
    List.isEmpty_iff, decide_eq_true_eq, Bool.not_eq_true'] at h
  obtain ⟨h0, hs⟩ := h
  constructor
  · intro hne
    rcases h0 with h0 | h0
    · exact absurd h0 hne
    · exact h0
  · intro i hi hhdr
    rcases hs i hi with hcase | hcase
    · rw [hhdr] at hcase; exact absurd hcase (by simp)
    · exact ⟨hcase.1, hcase.2⟩

theorem invCheck_sound {rl : ResultList} (h : rl.invCheck = true) : rl.Inv := by
  unfold ResultList.invCheck at h
  simp only [Bool.and_eq_true] at h
  obtain ⟨hsel, hblocks⟩ := h
  have hb : BlockInv rl.entries := blockCheck_sound hblocks
  cases hstate : rl.state with
  | none =>
    rw [hstate] at hsel
    simp only [List.isEmpty_iff] at hsel
    exact ⟨by simp [hstate, hsel], by simp [hstate], by simp [hstate], hb⟩
  | some i =>
    rw [hstate] at hsel
    simp only [Bool.and_eq_true, decide_eq_true_eq] at hsel
    refine ⟨?_, ?_, ?_, hb⟩
    · constructor
      · intro hc; rw [hstate] at hc; exact absurd hc (by simp)
      · intro hc
        have := hsel.1
        rw [hc] at this
        simp at this
    · intro j hj
      rw [hstate] at hj
      cases hj
      exact hsel.1
    · intro j hj
      rw [hstate] at hj
      cases hj
      exact hsel.2

/-! ### Consequences of the block structure -/

theorem BlockInv.one_lt {es : List EntryType} (hb : BlockInv es) (hne : es ≠ []) :
    1 < es.length ∧ (entryAt es 1).isMatch = true := by
  have h0 : (entryAt es 0).isHeader = true := hb.head hne
  have hlen : 0 < es.length := List.length_pos.mpr hne
  have := hb.succ 0 hlen h0
  exact ⟨this.1, isMatch_of_not_isHeader this.2⟩

theorem BlockInv.last_isMatch {es : List EntryType} (hb : BlockInv es) (hne : es ≠ []) :
    (entryAt es (es.length - 1)).isMatch = true := by
  have hlen : 0 < es.length := List.length_pos.mpr hne
  cases hh : (entryAt es (es.length - 1)).isHeader with
  | false => exact isMatch_of_not_isHeader hh
  | true =>
    have := (hb.succ (es.length - 1) (by omega) hh).1
    omega

theorem BlockInv.before_header_isMatch {es : List EntryType} (hb : BlockInv es)
    {j : Nat} (hj : j < es.length) (hhdr : (entryAt es j).isHeader = true)
    (h1 : 1 ≤ j) : (entryAt es (j - 1)).isMatch = true := by
  cases hh : (entryAt es (j - 1)).isHeader with
  | false => exact isMatch_of_not_isHeader hh
  | true =>
    have := (hb.succ (j - 1) (by omega) hh).2
    have hj1 : j - 1 + 1 = j := by omega
    rw [hj1] at this
    rw [hhdr] at this
    exact absurd this (by simp)

/-! ### The backward and forward header scans -/

theorem findHeaderBack_lt (es : List EntryType) : ∀ s, 0 < s → findHeaderBack es s < s := by
  intro s
  induction s with
  | zero => omega
  | succ n ih =>
    intro _
    simp only [findHeaderBack]
    split
    · omega
    · cases Nat.eq_zero_or_pos n with
      | inl h0 => subst h0; simp [findHeaderBack]
      | inr hpos => have := ih hpos; omega

theorem findHeaderBack_isHeader {es : List EntryType}
    (h0 : (entryAt es 0).isHeader = true) :
    ∀ s, (entryAt es (findHeaderBack es s)).isHeader = true := by
  intro s
  induction s with
  | zero => exact h0
  | succ n ih =>
    simp only [findHeaderBack]
    split
    · assumption
    · exact ih

theorem findHeaderBack_between {es : List EntryType} :
    ∀ s j, findHeaderBack es s < j → j < s → (entryAt es j).isHeader = false := by
  intro s
  induction s with
  | zero => omega
  | succ n ih =>
    intro j h1 h2
    simp only [findHeaderBack] at h1
    by_cases hh : (entryAt es n).isHeader = true
    · rw [if_pos hh] at h1
      omega
    · rw [if_neg hh] at h1
      rcases Nat.lt_succ_iff_lt_or_eq.mp h2 with hlt | heq
      · exact ih j h1 hlt
      · subst heq
        simpa using hh

theorem findHeaderFwd_spec (es : List EntryType) (i : Nat) (hi : i ≤ es.length) :
    i ≤ findHeaderFwd es i ∧ findHeaderFwd es i ≤ es.length ∧
    (findHeaderFwd es i < es.length →
      (entryAt es (findHeaderFwd es i)).isHeader = true) ∧
    (∀ j, i ≤ j → j < findHeaderFwd es i → (entryAt es j).isHeader = false) := by
  generalize hk : es.length - i = k
  induction k generalizing i with
  | zero =>
    have hieq : i = es.length := by omega
    unfold findHeaderFwd
    rw [dif_neg (by omega)]
    refine ⟨by omega, Nat.le_refl _, by omega, ?_⟩
    intro j hj1 hj2
    omega
  | succ k ih =>
    have hlt : i < es.length := by omega
    unfold findHeaderFwd
    rw [dif_pos hlt]
    by_cases hh : (entryAt es i).isHeader = true
    · rw [if_pos hh]
      refine ⟨Nat.le_refl _, by omega, fun _ => hh, ?_⟩
      intro j hj1 hj2
      omega
    · rw [if_neg hh]
      obtain ⟨ha, hb, hc, hd⟩ := ih (i + 1) (by omega) (by omega)
      refine ⟨by omega, hb, hc, ?_⟩
      intro j hj1 hj2
      rcases Nat.lt_or_ge i j with hgt | hle
      · exact hd j (by omega) hj2
      · have hij : j = i := by omega
        subst hij
        simpa using hh

/-! ### List surgery -/

theorem entryAt_eq_getElem {es : List EntryType} {i : Nat} (h : i < es.length) :
    entryAt es i = es[i] := by
  simp [entryAt, List.getElem?_eq_getElem h]

theorem eraseIdx_append_right (X Y : List EntryType) (j : Nat) :
    (X ++ Y).eraseIdx (X.length + j) = X ++ Y.eraseIdx j := by
  induction X with
  | nil => simp
  | cons x X ih =>
    simp only [List.cons_append, List.length_cons]
    have : X.length + 1 + j = (X.length + j) + 1 := by omega
    rw [this, List.eraseIdx_cons_succ, ih]

theorem removeSpan_append (A S B : List EntryType) :
    removeSpan (A ++ (S ++ B)) A.length S.length = A ++ B := by
  induction S with
  | nil => rfl
  | cons e S ih =>
    show removeSpan ((A ++ (e :: S ++ B)).eraseIdx A.length) A.length S.length = A ++ B
    have h1 : (A ++ (e :: S ++ B)).eraseIdx A.length = A ++ (S ++ B) := by
      have := eraseIdx_append_right A (e :: S ++ B) 0
      simpa using this
    rw [h1, ih]

/-! ### Decomposition of a well-formed sequence at the selected match -/

theorem decompose_at_selection {es : List EntryType} (hb : BlockInv es)
    {s : Nat} (hs : s < es.length) (hm : (entryAt es s).isMatch = true) :
    ∃ A name ms B, es = A ++ (EntryType.Header name :: ms) ++ B ∧
      A.length = findHeaderBack es s ∧
      findHeaderFwd es s = A.length + 1 + ms.length ∧
      ms ≠ [] ∧ (∀ e ∈ ms, e.isMatch = true) ∧
      (B = [] ∨ (entryAt B 0).isHeader = true) ∧
      (A = [] ∨ 2 ≤ A.length) ∧
      A.length < s ∧ s ≤ A.length + ms.length := by
  have hne : es ≠ [] := List.ne_nil_of_length_pos (by omega)
  have h0 : (entryAt es 0).isHeader = true := hb.head hne
  have hs1 : 1 ≤ s := by
    rcases Nat.eq_zero_or_pos s with h | h
    · rw [h] at hm
      rw [isHeader_false_of_isMatch hm] at h0
      exact absurd h0 (by simp)
    · exact h
  set h := findHeaderBack es s with hh_def
  set n := findHeaderFwd es s with hn_def
  have hh_lt : h < s := findHeaderBack_lt es s (by omega)
  have hh_hdr : (entryAt es h).isHeader = true := findHeaderBack_isHeader h0 s
  obtain ⟨hn_ge, hn_le, hn_hdr, hn_btw⟩ := findHeaderFwd_spec es s (by omega)
  have hs_lt_n : s < n := by
    rcases Nat.lt_or_ge s n with hlt | hge
    · exact hlt
    · have hsn : n = s := by omega
      rw [← hsn] at hm
      have : (entryAt es n).isHeader = true := hn_hdr (by omega)
      rw [isHeader_false_of_isMatch hm] at this
      exact absurd this (by simp)
  have hh1n : h + 1 ≤ n := by omega
  obtain ⟨name, hname⟩ : ∃ name, entryAt es h = .Header name := by
    cases hcase : entryAt es h with
    | Header nm => exact ⟨nm, rfl⟩
    | Match a b =>
      rw [hcase] at hh_hdr
      simp [EntryType.isHeader] at hh_hdr
  refine ⟨es.take h, name, (es.drop (h + 1)).take (n - (h + 1)), es.drop n,
    ?_, ?_, ?_, ?_, ?_, ?_, ?_, ?_, ?_⟩
  · have e1 : es.take h ++ es.drop h = es := List.take_append_drop h es
    have e2 : es.drop h = entryAt es h :: es.drop (h + 1) := by
      rw [entryAt_eq_getElem (by omega)]
      exact List.drop_eq_getElem_cons (by omega)
    have e3 : (es.drop (h + 1)).take (n - (h + 1)) ++ es.drop n = es.drop (h + 1) := by
      have := List.take_append_drop (n - (h + 1)) (es.drop (h + 1))
      have e4 : (es.drop (h + 1)).drop (n - (h + 1)) = es.drop n := by
        rw [List.drop_drop]
        congr 1
        omega
      rw [e4] at this
      exact this
    conv_lhs => rw [← e1]
    rw [e2, hname]
    simp only [List.append_assoc, List.cons_append]
    rw [e3]
  · simp
    omega
  · have l1 : (es.take h).length = h := by simp; omega
    have l2 : ((es.drop (h + 1)).take (n - (h + 1))).length = n - (h + 1) := by
      simp
      omega
    rw [l1, l2]
    omega
  · have l2 : ((es.drop (h + 1)).take (n - (h + 1))).length = n - (h + 1) := by
      simp
      omega
    exact List.ne_nil_of_length_pos (by omega)
  · intro e he
    rw [List.mem_iff_getElem] at he
    obtain ⟨j, hj, hje⟩ := he
    have hjlen : ((es.drop (h + 1)).take (n - (h + 1))).length = n - (h + 1) := by
      simp
      omega
    rw [hjlen] at hj
    have : entryAt ((es.drop (h + 1)).take (n - (h + 1))) j = e := by
      rw [entryAt_eq_getElem (by rw [hjlen]; omega)]
      exact hje
    rw [entryAt_take (by omega), entryAt_drop] at this
    have hnothdr : (entryAt es (h + 1 + j)).isHeader = false := by
      rcases Nat.lt_or_ge (h + 1 + j) s with hlt | hge
      · exact findHeaderBack_between s (h + 1 + j) (by omega) hlt
      · exact hn_btw (h + 1 + j) (by omega) (by omega)
    rw [this] at hnothdr
    exact isMatch_of_not_isHeader hnothdr
  · rcases Nat.lt_or_ge n es.length with hlt | hge
    · right
      rw [entryAt_drop]
      have : n + 0 = n := by omega
      rw [this]
      exact hn_hdr hlt
    · left
      simp
      omega
  · rcases Nat.eq_zero_or_pos h with hz | hp
    · left; rw [hz]; rfl
    · right
      have hne1 : h ≠ 1 := by
        intro h1
        rw [h1] at hh_hdr
        have := (hb.succ 0 (by omega) h0).2
        rw [hh_hdr] at this
        exact absurd this (by simp)
      have : (es.take h).length = h := by simp; omega
      rw [this]
      omega
  · simp
    omega
  · have l1 : (es.take h).length = h := by simp; omega
    have l2 : ((es.drop (h + 1)).take (n - (h + 1))).length = n - (h + 1) := by
      simp
      omega
    rw [l1, l2]
    omega

theorem findHeaderBack_eq {es : List EntryType} {s h : Nat} (hlt : h < s)
    (hhdr : (entryAt es h).isHeader = true)
    (hbtw : ∀ j, h < j → j < s → (entryAt es j).isHeader = false) :
    findHeaderBack es s = h := by
  induction s with
  | zero => omega
  | succ n ih =>
    simp only [findHeaderBack]
    by_cases hn : h = n
    · subst hn
      rw [if_pos hhdr]
    · have hnh : (entryAt es n).isHeader = false := hbtw n (by omega) (by omega)
      rw [if_neg (by simp [hnh])]
      exact ih (by omega) (fun j h1 h2 => hbtw j h1 (by omega))

theorem findHeaderFwd_eq {es : List EntryType} {s n : Nat} (hsn : s ≤ n)
    (hn : n ≤ es.length)
    (hhdr : n = es.length ∨ (entryAt es n).isHeader = true)
    (hbtw : ∀ j, s ≤ j → j < n → (entryAt es j).isHeader = false) :
    findHeaderFwd es s = n := by
  generalize hk : n - s = k
  induction k generalizing s with
  | zero =>
    have hsn1 : s = n := by omega
    subst hsn1
    unfold findHeaderFwd
    rcases Nat.lt_or_ge s es.length with hlt | hge
    · rw [dif_pos hlt]
      rcases hhdr with hcase | hcase
      · omega
      · rw [if_pos hcase]
    · rw [dif_neg (by omega)]
      omega
  | succ k ih =>
    have hslt : s < n := by omega
    unfold findHeaderFwd
    rw [dif_pos (by omega)]
    have hnh : (entryAt es s).isHeader = false := hbtw s (Nat.le_refl s) hslt
    rw [if_neg (by simp [hnh])]
    exact ih (by omega) (fun j h1 h2 => hbtw j (by omega) h2) (by omega)

theorem entryAt_mem {es : List EntryType} {i : Nat} (h : i < es.length) :
    entryAt es i ∈ es := by
  rw [entryAt_eq_getElem h]
  exact List.getElem_mem h

/-! ### Positional facts about a decomposed sequence -/

theorem structured_entryAt_header (A : List EntryType) (name : String)
    (ms B : List EntryType) :
    entryAt (A ++ (EntryType.Header name :: ms) ++ B) A.length =
      EntryType.Header name := by
  rw [List.append_assoc, entryAt_append_right (Nat.le_refl _)]
  simp [entryAt]

theorem structured_entryAt_ms {A : List EntryType} {name : String}
    {ms B : List EntryType} {j : Nat}
    (hmm : ∀ e ∈ ms, e.isMatch = true)
    (hlo : A.length < j) (hhi : j ≤ A.length + ms.length) :
    (entryAt (A ++ (EntryType.Header name :: ms) ++ B) j).isHeader = false := by
  rw [List.append_assoc, entryAt_append_right (by omega), List.cons_append]
  have hj : j - A.length = (j - A.length - 1) + 1 := by omega
  rw [hj, entryAt_cons_succ]
  rw [entryAt_append_left (by omega)]
  exact isHeader_false_of_isMatch (hmm _ (entryAt_mem (by omega)))

theorem structured_entryAt_after (A : List EntryType) (name : String)
    (ms B : List EntryType) {j : Nat} (hj : A.length + 1 + ms.length ≤ j) :
    entryAt (A ++ (EntryType.Header name :: ms) ++ B) j =
      entryAt B (j - (A.length + 1 + ms.length)) := by
  rw [entryAt_append_right (by simp; omega)]
  congr 1
  simp
  omega

theorem structured_length (A : List EntryType) (name : String)
    (ms B : List EntryType) :
    (A ++ (EntryType.Header name :: ms) ++ B).length =
      A.length + 1 + ms.length + B.length := by
  simp
  omega

/-! ### Characterization of `remove_current_file` on a decomposed state -/

theorem remove_current_file_structured (A : List EntryType) (name : String)
    (ms B : List EntryType) (s : Nat)
    (hmm : ∀ e ∈ ms, e.isMatch = true)
    (hB : B = [] ∨ (entryAt B 0).isHeader = true)
    (hlo : A.length < s) (hhi : s ≤ A.length + ms.length) :
    (ResultList.mk (A ++ (EntryType.Header name :: ms) ++ B) (some s)).remove_current_file
      = ⟨A ++ B,
         if (A ++ B).isEmpty then none
         else if s ≠ 1 then some (max (A.length - 1) 1) else some s⟩ := by
  set es := A ++ (EntryType.Header name :: ms) ++ B with hes
  have hlen : es.length = A.length + 1 + ms.length + B.length := structured_length A name ms B
  have hfb : findHeaderBack es s = A.length :=
    findHeaderBack_eq hlo
      (by rw [hes, structured_entryAt_header A name ms B]; rfl)
      (fun j h1 h2 => structured_entryAt_ms hmm h1 (by omega))
  have hff : findHeaderFwd es s = A.length + 1 + ms.length := by
    apply findHeaderFwd_eq (by omega) (by omega)
    · rcases hB with hBe | hBh
      · left
        rw [hlen, hBe]
        simp
      · right
        rw [structured_entryAt_after A name ms B (Nat.le_refl _)]
        simpa using hBh
    · intro j h1 h2
      exact structured_entryAt_ms hmm (by omega) (by omega)
  have hspan : removeSpan es A.length (A.length + 1 + ms.length - A.length) = A ++ B := by
    have h1 : A.length + 1 + ms.length - A.length = (EntryType.Header name :: ms).length := by
      simp
      omega
    rw [h1]
    have h2 : es = A ++ ((EntryType.Header name :: ms) ++ B) := by
      rw [hes, List.append_assoc]
    rw [h2]
    exact removeSpan_append A (EntryType.Header name :: ms) B
  have hne : es.isEmpty = false := by
    rw [hes]
    simp
  unfold ResultList.remove_current_file
  simp only [ResultList.is_empty, hne, Bool.false_eq_true, if_false, Option.getD_some,
    hfb, hff, hspan]

/-! ### Characterization of `is_last_match_in_file` and single-entry removal -/

theorem is_last_match_in_file_structured (A : List EntryType) (name : String)
    (ms B : List EntryType) (s : Nat)
    (hmm : ∀ e ∈ ms, e.isMatch = true)
    (hB : B = [] ∨ (entryAt B 0).isHeader = true)
    (hlo : A.length < s) (hhi : s ≤ A.length + ms.length) :
    (ResultList.mk (A ++ (EntryType.Header name :: ms) ++ B) (some s)).is_last_match_in_file
      = (decide (s = A.length + 1) && decide (s = A.length + ms.length)) := by
  set es := A ++ (EntryType.Header name :: ms) ++ B with hes
  have hlen : es.length = A.length + 1 + ms.length + B.length := structured_length A name ms B
  unfold ResultList.is_last_match_in_file
  simp only [Option.getD_some]
  by_cases hpred : s = A.length + 1
  · have hhdr : (entryAt es (s - 1)).isHeader = true := by
      have : s - 1 = A.length := by omega
      rw [this, hes, structured_entryAt_header A name ms B]
      rfl
    rw [hhdr, if_pos rfl]
    by_cases hlast : s = A.length + ms.length
    · have hr : (decide (s = A.length + 1) && decide (s = A.length + ms.length)) = true := by
        simp only [Bool.and_eq_true, decide_eq_true_eq]
        omega
      rcases hB with hBe | hBh
      · have hl : (decide (s = es.length - 1) || (entryAt es (s + 1)).isHeader) = true := by
          simp only [Bool.or_eq_true, decide_eq_true_eq]
          left
          rw [hlen, hBe]
          simp
          omega
        rw [hl, hr]
      · have hafter : entryAt es (s + 1) = entryAt B 0 := by
          have h1 : s + 1 = A.length + 1 + ms.length := by omega
          rw [h1, hes, structured_entryAt_after A name ms B (Nat.le_refl _)]
          simp
        have hl : (decide (s = es.length - 1) || (entryAt es (s + 1)).isHeader) = true := by
          simp only [Bool.or_eq_true]
          right
          rw [hafter]
          exact hBh
        rw [hl, hr]
    · have hnot1 : (entryAt es (s + 1)).isHeader = false := by
        rw [hes]
        exact structured_entryAt_ms hmm (by omega) (by omega)
      have hnot2 : ¬(s = es.length - 1) := by
        rw [hlen]
        omega
      simp [hnot1, hnot2, hlast]
  · have hhdr : (entryAt es (s - 1)).isHeader = false := by
      rw [hes]
      exact structured_entryAt_ms hmm (by omega) (by omega)
    rw [hhdr]
    simp [hpred]

theorem remove_current_entry_and_select_previous_structured (A : List EntryType)
    (name : String) (ms B : List EntryType) (s : Nat)
    (hmm : ∀ e ∈ ms, e.isMatch = true)
    (hB : B = [] ∨ (entryAt B 0).isHeader = true)
    (hlo : A.length < s) (hhi : s ≤ A.length + ms.length)
    (h2 : 2 ≤ ms.length) :
    (ResultList.mk (A ++ (EntryType.Header name :: ms) ++ B) (some s)).remove_current_entry_and_select_previous
      = ⟨A ++ (EntryType.Header name :: ms.eraseIdx (s - A.length - 1)) ++ B,
         some (if s = A.length + ms.length then s - 1 else s)⟩ := by
  set es := A ++ (EntryType.Header name :: ms) ++ B with hes
  set ms1 := ms.eraseIdx (s - A.length - 1) with hms1
  have hmslt : s - A.length - 1 < ms.length := by omega
  have hms1len : ms1.length = ms.length - 1 := by
    rw [hms1, List.length_eraseIdx]
    simp [hmslt]
  have hms1mem : ∀ e ∈ ms1, e.isMatch = true := by
    intro e he
    apply hmm
    rw [hms1, List.eraseIdx_eq_take_drop_succ] at he
    rcases List.mem_append.mp he with h | h
    · exact List.take_subset _ _ h
    · exact List.drop_subset _ _ h
  have herase : es.eraseIdx s = A ++ (EntryType.Header name :: ms1) ++ B := by
    have e1 : es = (A ++ [EntryType.Header name]) ++ (ms ++ B) := by
      rw [hes]
      simp
    have e2 : s = (A ++ [EntryType.Header name]).length + (s - A.length - 1) := by
      simp
      omega
    rw [e1, e2, eraseIdx_append_right]
    rw [List.eraseIdx_append_of_lt_length hmslt]
    rw [← hms1]
    simp
  have hlen1 : (es.eraseIdx s).length = A.length + ms.length + B.length := by
    rw [herase]
    rw [structured_length A name ms1 B]
    omega
  unfold ResultList.remove_current_entry_and_select_previous
  simp only [Option.getD_some]
  by_cases hlast : s = A.length + ms.length
  · have hcond : (decide (s ≥ (es.eraseIdx s).length)
        || (entryAt (es.eraseIdx s) s).isHeader) = true := by
      rcases hB with hBe | hBh
      · have : s ≥ (es.eraseIdx s).length := by
          rw [hlen1, hBe]
          simp
          omega
        simp [this]
      · have : entryAt (es.eraseIdx s) s = entryAt B 0 := by
          rw [herase]
          have h1 : A.length + 1 + ms1.length ≤ s := by omega
          rw [structured_entryAt_after A name ms1 B h1]
          congr 1
          omega
        rw [this]
        simp [hBh]
    rw [if_pos (by simpa using hcond)]
    rw [herase, if_pos hlast]
  · have hc1 : ¬(s ≥ (es.eraseIdx s).length) := by
      rw [hlen1]
      omega
    have hc2 : (entryAt (es.eraseIdx s) s).isHeader = false := by
      rw [herase]
      exact structured_entryAt_ms hms1mem (by omega) (by omega)
    rw [if_neg (by simp [hc1, hc2])]
    rw [herase, if_neg hlast]

theorem remove_current_entry_structured_last (A : List EntryType) (name : String)
    (ms B : List EntryType) (s : Nat)
    (hmm : ∀ e ∈ ms, e.isMatch = true)
    (hB : B = [] ∨ (entryAt B 0).isHeader = true)
    (hlo : A.length < s) (hhi : s ≤ A.length + ms.length)
    (h1 : ms.length = 1) :
    (ResultList.mk (A ++ (EntryType.Header name :: ms) ++ B) (some s)).remove_current_entry
      = (ResultList.mk (A ++ (EntryType.Header name :: ms) ++ B) (some s)).remove_current_file := by
  have hlast : (ResultList.mk (A ++ (EntryType.Header name :: ms) ++ B) (some s)).is_last_match_in_file = true := by
    rw [is_last_match_in_file_structured A name ms B s hmm hB hlo hhi]
    simp only [Bool.and_eq_true, decide_eq_true_eq]
    omega
  unfold ResultList.remove_current_entry
  rw [if_neg (by simp [ResultList.is_empty]), if_pos hlast]

theorem remove_current_entry_structured_not_last (A : List EntryType) (name : String)
    (ms B : List EntryType) (s : Nat)
    (hmm : ∀ e ∈ ms, e.isMatch = true)
    (hB : B = [] ∨ (entryAt B 0).isHeader = true)
    (hlo : A.length < s) (hhi : s ≤ A.length + ms.length)
    (h2 : 2 ≤ ms.length) :
    (ResultList.mk (A ++ (EntryType.Header name :: ms) ++ B) (some s)).remove_current_entry
      = ⟨A ++ (EntryType.Header name :: ms.eraseIdx (s - A.length - 1)) ++ B,
         some (if s = A.length + ms.length then s - 1 else s)⟩ := by
  have hlast : (ResultList.mk (A ++ (EntryType.Header name :: ms) ++ B) (some s)).is_last_match_in_file = false := by
    rw [is_last_match_in_file_structured A name ms B s hmm hB hlo hhi]
    simp only [Bool.and_eq_false_iff, decide_eq_false_iff_not]
    omega
  unfold ResultList.remove_current_entry
  rw [if_neg (by simp [ResultList.is_empty]), if_neg (by rw [hlast]; simp)]
  exact remove_current_entry_and_select_previous_structured A name ms B s hmm hB hlo hhi h2

/-! ### Helpers for the data-model invariant -/

theorem inv_mk {es : List EntryType} {i : Nat} (hb : BlockInv es)
    (hbd : i < es.length) (hm : (entryAt es i).isMatch = true) :
    (ResultList.mk es (some i)).Inv := by
  refine ⟨⟨fun h => absurd h (by simp), fun h => ?_⟩, ?_, ?_, hb⟩
  · subst h
    simp at hbd
  · intro j hj
    have hij : i = j := by injection hj
    subst hij
    exact hbd
  · intro j hj
    have hij : i = j := by injection hj
    subst hij
    exact hm

theorem ResultList.Inv.entries_ne {rl : ResultList} (hInv : rl.Inv) {i : Nat}
    (hi : rl.state = some i) : rl.entries ≠ [] := by
  intro h
  have := hInv.selNone.mpr h
  rw [hi] at this
  exact absurd this (by simp)

theorem ResultList.Inv.sel_one_le {rl : ResultList} (hInv : rl.Inv) {i : Nat}
    (hi : rl.state = some i) : 1 ≤ i := by
  have hm := hInv.selMatch i hi
  have hne : rl.entries ≠ [] := hInv.entries_ne hi
  rcases Nat.eq_zero_or_pos i with h0 | h1
  · rw [h0] at hm
    have hh := hInv.blocks.head hne
    rw [isHeader_false_of_isMatch hm] at hh
    exact absurd hh (by simp)
  · exact h1

theorem ResultList.Inv.some_of_ne {rl : ResultList} (hInv : rl.Inv)
    (hne : rl.entries ≠ []) : ∃ i, rl.state = some i := by
  cases h : rl.state with
  | none => exact absurd (hInv.selNone.mp h) hne
  | some i => exact ⟨i, rfl⟩

/-! ### The navigation loops stay on matches -/

theorem nextFileLoop_good {es : List EntryType} (hb : BlockInv es) {i : Nat}
    (hi : i < es.length) (him : (entryAt es i).isMatch = true) :
    ∀ k, k < es.length → nextFileLoop es i k < es.length ∧
      (entryAt es (nextFileLoop es i k)).isMatch = true := by
  intro k
  generalize hK : es.length - k = K
  induction K generalizing k with
  | zero =>
    intro hk
    omega
  | succ K ih =>
    intro hk
    unfold nextFileLoop
    split
    next hkl => exact ⟨hi, him⟩
    next hkl =>
      split
      next nm heq =>
        have hk1 : k + 1 < es.length := by omega
        have := hb.succ (k + 1) hk1 (by rw [heq]; rfl)
        exact ⟨this.1, isMatch_of_not_isHeader this.2⟩
      next a b heq =>
        have hk1 : k + 1 < es.length := isMatch_entryAt_lt (by rw [heq]; rfl)
        exact ih (k + 1) (by omega) hk1

theorem prevFileLoop_good {es : List EntryType} (hb : BlockInv es) :
    ∀ K k fhv, k ≤ K → 1 ≤ k → k < es.length → (entryAt es k).isMatch = true →
      1 ≤ prevFileLoop es k fhv ∧ prevFileLoop es k fhv < es.length ∧
        (entryAt es (prevFileLoop es k fhv)).isMatch = true := by
  intro K
  induction K with
  | zero =>
    intro k fhv hkK h1 hlt hm
    omega
  | succ K ih =>
    intro k fhv hkK h1 hlt hm
    unfold prevFileLoop
    split
    next hle => exact ⟨h1, hlt, hm⟩
    next hgt =>
      split
      next nm heq =>
        split
        next => exact ⟨by omega, hlt, hm⟩
        next =>
          have hne : es ≠ [] := List.ne_nil_of_length_pos (by omega)
          have hk1h : (entryAt es (k - 1)).isHeader = true := by rw [heq]; rfl
          have hk12 : 2 ≤ k - 1 := by
            by_contra hcon
            have hk11 : k - 1 = 1 := by omega
            have h0 : (entryAt es 0).isHeader = true := hb.head hne
            have := (hb.succ 0 (by omega) h0).2
            rw [hk11] at hk1h
            rw [hk1h] at this
            exact absurd this (by simp)
          have hmk2 : (entryAt es (k - 2)).isMatch = true := by
            have := hb.before_header_isMatch (by omega) hk1h (by omega)
            have he : k - 1 - 1 = k - 2 := by omega
            rw [he] at this
            exact this
          exact ih (k - 2) true (by omega) (by omega) (by omega) hmk2
      next a b heq =>
        have hmk1 : (entryAt es (k - 1)).isMatch = true := by rw [heq]; rfl
        exact ih (k - 1) fhv (by omega) (by omega) (by omega) hmk1

/-! ### Invariant preservation: navigation -/

theorem inv_new : ResultList.new.Inv := by
  refine ⟨by simp [ResultList.new], ?_, ?_, ⟨fun h => absurd rfl h, ?_⟩⟩
  · intro i hi
    simp [ResultList.new] at hi
  · intro i hi
    simp [ResultList.new] at hi
  · intro i hi
    simp [ResultList.new] at hi

theorem inv_clear (rl : ResultList) : rl.clear.Inv := by
  refine ⟨by simp [ResultList.clear], ?_, ?_, ⟨fun h => absurd rfl h, ?_⟩⟩
  · intro i hi
    simp [ResultList.clear] at hi
  · intro i hi
    simp [ResultList.clear] at hi
  · intro i hi
    simp [ResultList.clear] at hi

theorem op_empty_id {rl : ResultList} (hE : rl.entries = []) :
    rl.next_match = rl ∧ rl.previous_match = rl ∧ rl.next_file = rl ∧
      rl.previous_file = rl ∧ rl.top = rl ∧ rl.bottom = rl ∧
      rl.remove_current_entry = rl ∧ rl.remove_current_file = rl := by
  have h : rl.is_empty = true := by simp [ResultList.is_empty, hE]
  refine ⟨?_, ?_, ?_, ?_, ?_, ?_, ?_, ?_⟩
  · unfold ResultList.next_match
    rw [if_pos h]
  · unfold ResultList.previous_match
    rw [if_pos h]
  · unfold ResultList.next_file
    rw [if_pos h]
  · unfold ResultList.previous_file
    rw [if_pos h]
  · unfold ResultList.top
    rw [if_pos h]
  · unfold ResultList.bottom
    rw [if_pos h]
  · unfold ResultList.remove_current_entry
    rw [if_pos h]
  · unfold ResultList.remove_current_file
    rw [if_pos h]

theorem inv_top {rl : ResultList} (hInv : rl.Inv) : rl.top.Inv := by
  by_cases hE : rl.entries = []
  · rw [(op_empty_id hE).2.2.2.2.1]
    exact hInv
  · have heq : rl.top = ⟨rl.entries, some 1⟩ := by
      simp [ResultList.top, ResultList.is_empty, List.isEmpty_iff, hE]
    rw [heq]
    have h1 := hInv.blocks.one_lt hE
    exact inv_mk hInv.blocks h1.1 h1.2

theorem inv_bottom {rl : ResultList} (hInv : rl.Inv) : rl.bottom.Inv := by
  by_cases hE : rl.entries = []
  · rw [(op_empty_id hE).2.2.2.2.2.1]
    exact hInv
  · have heq : rl.bottom = ⟨rl.entries, some (rl.entries.length - 1)⟩ := by
      simp [ResultList.bottom, ResultList.is_empty, List.isEmpty_iff, hE]
    rw [heq]
    have hlen : 0 < rl.entries.length := List.length_pos.mpr hE
    exact inv_mk hInv.blocks (by omega) (hInv.blocks.last_isMatch hE)

theorem inv_next_match {rl : ResultList} (hInv : rl.Inv) : rl.next_match.Inv := by
  by_cases hE : rl.entries = []
  · rw [(op_empty_id hE).1]
    exact hInv
  · obtain ⟨i, hi⟩ := hInv.some_of_ne hE
    have hbd := hInv.selBound i hi
    have hm := hInv.selMatch i hi
    by_cases hlast : i = rl.entries.length - 1
    · have heq : rl.next_match = ⟨rl.entries, some i⟩ := by
        simp [ResultList.next_match, ResultList.is_empty, List.isEmpty_iff, hE, hi, hlast]
      rw [heq]
      exact inv_mk hInv.blocks hbd hm
    · cases hcase : entryAt rl.entries (i + 1) with
      | Header nm =>
        have h1 : i + 1 < rl.entries.length := by omega
        have hsucc := hInv.blocks.succ (i + 1) h1 (by rw [hcase]; rfl)
        have heq : rl.next_match = ⟨rl.entries, some (i + 2)⟩ := by
          simp [ResultList.next_match, ResultList.is_empty, List.isEmpty_iff, hE, hi,
            hlast, hcase]
        rw [heq]
        exact inv_mk hInv.blocks hsucc.1 (isMatch_of_not_isHeader hsucc.2)
      | Match a b =>
        have heq : rl.next_match = ⟨rl.entries, some (i + 1)⟩ := by
          simp [ResultList.next_match, ResultList.is_empty, List.isEmpty_iff, hE, hi,
            hlast, hcase]
        rw [heq]
        exact inv_mk hInv.blocks (by omega) (by rw [hcase]; rfl)

theorem inv_previous_match {rl : ResultList} (hInv : rl.Inv) : rl.previous_match.Inv := by
  by_cases hE : rl.entries = []
  · rw [(op_empty_id hE).2.1]
    exact hInv
  · obtain ⟨i, hi⟩ := hInv.some_of_ne hE
    have hbd := hInv.selBound i hi
    have hm := hInv.selMatch i hi
    have h1i := hInv.sel_one_le hi
    by_cases hfirst : i = 1
    · have heq : rl.previous_match = ⟨rl.entries, some 1⟩ := by
        simp [ResultList.previous_match, ResultList.is_empty, List.isEmpty_iff, hE, hi, hfirst]
      rw [heq]
      have h1 := hInv.blocks.one_lt hE
      exact inv_mk hInv.blocks h1.1 h1.2
    · have h2i : 2 ≤ i := by omega
      cases hcase : entryAt rl.entries (i - 1) with
      | Header nm =>
        have hh : (entryAt rl.entries (i - 1)).isHeader = true := by rw [hcase]; rfl
        have hmm2 : (entryAt rl.entries (i - 2)).isMatch = true := by
          have := hInv.blocks.before_header_isMatch (by omega) hh (by omega)
          have he : i - 1 - 1 = i - 2 := by omega
          rw [he] at this
          exact this
        have heq : rl.previous_match = ⟨rl.entries, some (i - 2)⟩ := by
          simp [ResultList.previous_match, ResultList.is_empty, List.isEmpty_iff, hE, hi,
            hfirst, hcase]
        rw [heq]
        exact inv_mk hInv.blocks (by omega) hmm2
      | Match a b =>
        have heq : rl.previous_match = ⟨rl.entries, some (i - 1)⟩ := by
          simp [ResultList.previous_match, ResultList.is_empty, List.isEmpty_iff, hE, hi,
            hfirst, hcase]
        rw [heq]
        exact inv_mk hInv.blocks (by omega) (by rw [hcase]; rfl)

theorem inv_next_file {rl : ResultList} (hInv : rl.Inv) : rl.next_file.Inv := by
  by_cases hE : rl.entries = []
  · rw [(op_empty_id hE).2.2.1]
    exact hInv
  · obtain ⟨i, hi⟩ := hInv.some_of_ne hE
    have hbd := hInv.selBound i hi
    have hm := hInv.selMatch i hi
    have heq : rl.next_file = ⟨rl.entries, some (nextFileLoop rl.entries i i)⟩ := by
      simp [ResultList.next_file, ResultList.is_empty, List.isEmpty_iff, hE, hi]
    rw [heq]
    have := nextFileLoop_good hInv.blocks hbd hm i hbd
    exact inv_mk hInv.blocks this.1 this.2

theorem inv_previous_file {rl : ResultList} (hInv : rl.Inv) : rl.previous_file.Inv := by
  by_cases hE : rl.entries = []
  · rw [(op_empty_id hE).2.2.2.1]
    exact hInv
  · obtain ⟨i, hi⟩ := hInv.some_of_ne hE
    have hbd := hInv.selBound i hi
    have hm := hInv.selMatch i hi
    have h1i := hInv.sel_one_le hi
    have heq : rl.previous_file = ⟨rl.entries, some (prevFileLoop rl.entries i false)⟩ := by
      simp [ResultList.previous_file, ResultList.is_empty, List.isEmpty_iff, hE, hi]
    rw [heq]
    have := prevFileLoop_good hInv.blocks i i false (Nat.le_refl i) h1i hbd hm
    exact inv_mk hInv.blocks this.2.1 this.2.2

/-! ### Invariant preservation: `add_entry` -/

theorem wellFormedGroup_parts {g : List EntryType} (hg : isWellFormedGroup g = true) :
    ∃ nm rest, g = .Header nm :: rest ∧ rest ≠ [] ∧ ∀ e ∈ rest, e.isMatch = true := by
  cases g with
  | nil => simp [isWellFormedGroup] at hg
  | cons e rest =>
    cases e with
    | Header nm =>
      simp only [isWellFormedGroup, Bool.and_eq_true, Bool.not_eq_true',
        List.isEmpty_eq_false, List.all_eq_true] at hg
      exact ⟨nm, rest, rfl, hg.1, hg.2⟩
    | Match a b => simp [isWellFormedGroup] at hg

theorem blockInv_group {nm : String} {rest : List EntryType} (hrest : rest ≠ [])
    (hmm : ∀ e ∈ rest, e.isMatch = true) :
    BlockInv (EntryType.Header nm :: rest) := by
  constructor
  · intro h
    rw [entryAt_cons_zero]
    rfl
  · intro i hi hhdr
    cases i with
    | zero =>
      have hrlen : 0 < rest.length := List.length_pos.mpr hrest
      constructor
      · simp
        omega
      · rw [entryAt_cons_succ]
        exact isHeader_false_of_isMatch (hmm _ (entryAt_mem hrlen))
    | succ j =>
      rw [entryAt_cons_succ] at hhdr
      have hj : j < rest.length := by
        simp at hi
        omega
      rw [isHeader_false_of_isMatch (hmm _ (entryAt_mem hj))] at hhdr
      exact absurd hhdr (by simp)

theorem blockInv_append {es fs : List EntryType} (h1 : BlockInv es) (h2 : BlockInv fs) :
    BlockInv (es ++ fs) := by
  constructor
  · intro hne
    by_cases hE : es = []
    · rw [hE, List.nil_append]
      apply h2.head
      rw [hE, List.nil_append] at hne
      exact hne
    · rw [entryAt_append_left (List.length_pos.mpr hE)]
      exact h1.head hE
  · intro i hi hhdr
    simp only [List.length_append] at hi
    by_cases hlt : i < es.length
    · rw [entryAt_append_left hlt] at hhdr
      have hs := h1.succ i hlt hhdr
      refine ⟨by simp; omega, ?_⟩
      rw [entryAt_append_left hs.1]
      exact hs.2
    · have hge : es.length ≤ i := by omega
      rw [entryAt_append_right hge] at hhdr
      have hfi : i - es.length < fs.length := by omega
      have hs := h2.succ (i - es.length) hfi hhdr
      refine ⟨by simp; omega, ?_⟩
      rw [entryAt_append_right (by omega)]
      have he : i + 1 - es.length = (i - es.length) + 1 := by omega
      rw [he]
      exact hs.2

theorem inv_add_entry {rl : ResultList} {g : List EntryType} (hInv : rl.Inv)
    (hg : isWellFormedGroup g = true) : (rl.add_entry g).Inv := by
  obtain ⟨nm, rest, hg_eq, hrest, hmm⟩ := wellFormedGroup_parts hg
  have hbg : BlockInv g := by
    rw [hg_eq]
    exact blockInv_group hrest hmm
  have hb1 : BlockInv (rl.entries ++ g) := blockInv_append hInv.blocks hbg
  have hgne : g ≠ [] := by
    rw [hg_eq]
    simp
  cases hstate : rl.state with
  | some i =>
    have heq : rl.add_entry g = ⟨rl.entries ++ g, some i⟩ := by
      simp [ResultList.add_entry, hstate]
    rw [heq]
    have hbd := hInv.selBound i hstate
    refine inv_mk hb1 (by simp; omega) ?_
    rw [entryAt_append_left hbd]
    exact hInv.selMatch i hstate
  | none =>
    have hE : rl.entries = [] := hInv.selNone.mp hstate
    have heq : rl.add_entry g = (ResultList.mk g none).next_match := by
      simp [ResultList.add_entry, hstate, hE]
    have heq2 : (ResultList.mk g none).next_match = ⟨g, some 1⟩ := by
      simp [ResultList.next_match, ResultList.is_empty, List.isEmpty_iff, hgne]
    rw [heq, heq2]
    have h1 := hbg.one_lt hgne
    exact inv_mk hbg h1.1 h1.2

/-! ### Invariant preservation: removal -/

theorem structured_entryAt_ms_match {A : List EntryType} {name : String}
    {ms B : List EntryType} {j : Nat}
    (hmm : ∀ e ∈ ms, e.isMatch = true)
    (hlo : A.length < j) (hhi : j ≤ A.length + ms.length) :
    (entryAt (A ++ (EntryType.Header name :: ms) ++ B) j).isMatch = true := by
  rw [List.append_assoc, entryAt_append_right (by omega), List.cons_append]
  have hj : j - A.length = (j - A.length - 1) + 1 := by omega
  rw [hj, entryAt_cons_succ]
  rw [entryAt_append_left (by omega)]
  exact hmm _ (entryAt_mem (by omega))

theorem blockInv_prefix {A X : List EntryType} (hb : BlockInv (A ++ X))
    (hX0 : X ≠ [] → (entryAt X 0).isHeader = true) : BlockInv A := by
  constructor
  · intro hne
    rw [← entryAt_append_left (List.length_pos.mpr hne)]
    apply hb.head
    intro hc
    rw [List.append_eq_nil] at hc
    exact hne hc.1
  · intro i hi hh
    have hgl : (entryAt (A ++ X) i).isHeader = true := by
      rw [entryAt_append_left hi]
      exact hh
    have hs := hb.succ i (by simp; omega) hgl
    have hi1 : i + 1 < A.length := by
      rcases Nat.lt_or_ge (i + 1) A.length with hlt | hge2
      · exact hlt
      · have he : i + 1 = A.length := by omega
        have hXne : X ≠ [] := by
          intro hX
          have h1 := hs.1
          rw [hX] at h1
          simp at h1
          omega
        have hhx : (entryAt (A ++ X) (i + 1)).isHeader = true := by
          rw [he, entryAt_append_right (Nat.le_refl _)]
          have h0 : A.length - A.length = 0 := by omega
          rw [h0]
          exact hX0 hXne
        rw [hs.2] at hhx
        exact absurd hhx (by simp)
    refine ⟨hi1, ?_⟩
    rw [← entryAt_append_left hi1]
    exact hs.2

theorem blockInv_suffix {X B : List EntryType} (hb : BlockInv (X ++ B))
    (hB0 : B ≠ [] → (entryAt B 0).isHeader = true) : BlockInv B := by
  constructor
  · exact hB0
  · intro i hi hh
    have hgl : (entryAt (X ++ B) (X.length + i)).isHeader = true := by
      rw [entryAt_append_right (by omega)]
      have he : X.length + i - X.length = i := by omega
      rw [he]
      exact hh
    have hs := hb.succ (X.length + i) (by simp; omega) hgl
    have h1 := hs.1
    simp only [List.length_append] at h1
    refine ⟨by omega, ?_⟩
    have h2 := hs.2
    rw [entryAt_append_right (by omega)] at h2
    have he : X.length + i + 1 - X.length = i + 1 := by omega
    rw [he] at h2
    exact h2

theorem inv_remove_current_file {rl : ResultList} (hInv : rl.Inv) :
    rl.remove_current_file.Inv := by
  cases hstate : rl.state with
  | none =>
    have hE := hInv.selNone.mp hstate
    rw [(op_empty_id hE).2.2.2.2.2.2.2]
    exact hInv
  | some s =>
    have hbd := hInv.selBound s hstate
    have hm := hInv.selMatch s hstate
    obtain ⟨A, nm, ms, B, hsplit, hfb, hff, hmsne, hmm, hB, hA, hlo, hhi⟩ :=
      decompose_at_selection hInv.blocks hbd hm
    have hrl : rl = ⟨A ++ (EntryType.Header nm :: ms) ++ B, some s⟩ := by
      have he : rl = ⟨rl.entries, rl.state⟩ := rfl
      rw [he, hsplit, hstate]
    have hbs : BlockInv (A ++ (EntryType.Header nm :: ms) ++ B) := by
      rw [← hsplit]
      exact hInv.blocks
    have hbB : BlockInv B := blockInv_suffix hbs (fun hne => hB.resolve_left hne)
    have hbA : BlockInv A := by
      have hbs2 : BlockInv (A ++ ((EntryType.Header nm :: ms) ++ B)) := by
        rw [← List.append_assoc]
        exact hbs
      refine blockInv_prefix hbs2 ?_
      intro hne
      rw [entryAt_append_left (by simp), entryAt_cons_zero]
      rfl
    have hbAB : BlockInv (A ++ B) := blockInv_append hbA hbB
    rw [hrl, remove_current_file_structured A nm ms B s hmm hB hlo hhi]
    by_cases hABe : (A ++ B).isEmpty = true
    · rw [if_pos hABe]
      have hABnil : A ++ B = [] := by simpa [List.isEmpty_iff] using hABe
      refine ⟨by simp [hABnil], ?_, ?_, hbAB⟩
      · intro j hj
        exact absurd hj (by simp)
      · intro j hj
        exact absurd hj (by simp)
    · rw [if_neg hABe]
      have hABne : A ++ B ≠ [] := by simpa [List.isEmpty_iff] using hABe
      by_cases hs1 : s ≠ 1
      · rw [if_pos hs1]
        by_cases hAe : A = []
        · have hval : max (A.length - 1) 1 = 1 := by rw [hAe]; rfl
          rw [hval]
          have h1 := hbAB.one_lt hABne
          exact inv_mk hbAB h1.1 h1.2
        · have hA2 : 2 ≤ A.length := hA.resolve_left hAe
          have hval : max (A.length - 1) 1 = A.length - 1 := by omega
          rw [hval]
          have hlm : (entryAt A (A.length - 1)).isMatch = true := hbA.last_isMatch hAe
          refine inv_mk hbAB (by simp; omega) ?_
          rw [entryAt_append_left (by omega)]
          exact hlm
      · rw [if_neg hs1]
        have hseq : s = 1 := not_not.mp hs1
        rw [hseq]
        have h1 := hbAB.one_lt hABne
        exact inv_mk hbAB h1.1 h1.2

theorem inv_remove_current_entry {rl : ResultList} (hInv : rl.Inv) :
    rl.remove_current_entry.Inv := by
  cases hstate : rl.state with
  | none =>
    have hE := hInv.selNone.mp hstate
    rw [(op_empty_id hE).2.2.2.2.2.2.1]
    exact hInv
  | some s =>
    have hbd := hInv.selBound s hstate
    have hm := hInv.selMatch s hstate
    obtain ⟨A, nm, ms, B, hsplit, hfb, hff, hmsne, hmm, hB, hA, hlo, hhi⟩ :=
      decompose_at_selection hInv.blocks hbd hm
    have hrl : rl = ⟨A ++ (EntryType.Header nm :: ms) ++ B, some s⟩ := by
      have he : rl = ⟨rl.entries, rl.state⟩ := rfl
      rw [he, hsplit, hstate]
    by_cases hms1 : ms.length = 1
    · have heq : rl.remove_current_entry = rl.remove_current_file := by
        rw [hrl]
        exact remove_current_entry_structured_last A nm ms B s hmm hB hlo hhi hms1
      rw [heq]
      exact inv_remove_current_file hInv
    · have hms2 : 2 ≤ ms.length := by
        have := List.length_pos.mpr hmsne
        omega
      have heq : rl.remove_current_entry
          = ⟨A ++ (EntryType.Header nm :: ms.eraseIdx (s - A.length - 1)) ++ B,
             some (if s = A.length + ms.length then s - 1 else s)⟩ := by
        rw [hrl]
        exact remove_current_entry_structured_not_last A nm ms B s hmm hB hlo hhi hms2
      rw [heq]
      set ms1 := ms.eraseIdx (s - A.length - 1) with hms1def
      have hmslt : s - A.length - 1 < ms.length := by omega
      have hms1len : ms1.length = ms.length - 1 := by
        rw [hms1def, List.length_eraseIdx]
        simp [hmslt]
      have hms1mem : ∀ e ∈ ms1, e.isMatch = true := by
        intro e he
        apply hmm
        rw [hms1def, List.eraseIdx_eq_take_drop_succ] at he
        rcases List.mem_append.mp he with h | h
        · exact List.take_subset _ _ h
        · exact List.drop_subset _ _ h
      have hms1ne : ms1 ≠ [] := by
        apply List.ne_nil_of_length_pos
        omega
      have hbs : BlockInv (A ++ (EntryType.Header nm :: ms) ++ B) := by
        rw [← hsplit]
        exact hInv.blocks
      have hbB : BlockInv B := blockInv_suffix hbs (fun hne => hB.resolve_left hne)
      have hbA : BlockInv A := by
        have hbs2 : BlockInv (A ++ ((EntryType.Header nm :: ms) ++ B)) := by
          rw [← List.append_assoc]
          exact hbs
        refine blockInv_prefix hbs2 ?_
        intro hne
        rw [entryAt_append_left (by simp), entryAt_cons_zero]
        rfl
      have hbnew : BlockInv (A ++ (EntryType.Header nm :: ms1) ++ B) :=
        blockInv_append (blockInv_append hbA (blockInv_group hms1ne hms1mem)) hbB
      by_cases hlast : s = A.length + ms.length
      · rw [if_pos hlast]
        refine inv_mk hbnew ?_ ?_
        · rw [structured_length]
          omega
        · exact structured_entryAt_ms_match hms1mem (by omega) (by omega)
      · rw [if_neg hlast]
        refine inv_mk hbnew ?_ ?_
        · rw [structured_length]
          omega
        · exact structured_entryAt_ms_match hms1mem (by omega) (by omega)

/-! ### Every reachable state satisfies the invariant -/

theorem reachable_inv {rl : ResultList} (h : Reachable rl) : rl.Inv := by
  induction h with
  | new => exact inv_new
  | add_entry _ hg ih => exact inv_add_entry ih hg
  | clear _ ih => exact inv_clear _
  | next_match _ ih => exact inv_next_match ih
  | previous_match _ ih => exact inv_previous_match ih
  | next_file _ ih => exact inv_next_file ih
  | previous_file _ ih => exact inv_previous_file ih
  | top _ ih => exact inv_top ih
  | bottom _ ih => exact inv_bottom ih
  | remove_current_entry _ ih => exact inv_remove_current_entry ih
  | remove_current_file _ ih => exact inv_remove_current_file ih

theorem publicOp_reachable {rl rl1 : ResultList} (h : Reachable rl)
    (hop : PublicOp rl rl1) : Reachable rl1 := by
  cases hop with
  | next_match => exact Reachable.next_match h
  | previous_match => exact Reachable.previous_match h
  | next_file => exact Reachable.next_file h
  | previous_file => exact Reachable.previous_file h
  | top => exact Reachable.top h
  | bottom => exact Reachable.bottom h
  | add_entry g hg => exact Reachable.add_entry h hg
  | remove_current_entry => exact Reachable.remove_current_entry h
  | remove_current_file => exact Reachable.remove_current_file h

/-! ### From the pointwise block invariant to the block decomposition -/

theorem entryAt_cons_drop {es : List EntryType} {i : Nat} (h : i < es.length) :
    es.drop i = entryAt es i :: es.drop (i + 1) := by
  rw [entryAt_eq_getElem h]
  exact List.drop_eq_getElem_cons h

theorem blockInv_blocks_aux :
    ∀ (N : Nat) (es : List EntryType), es.length ≤ N → BlockInv es → Blocks es := by
  intro N
  induction N with
  | zero =>
    intro es hlen hb
    have hE : es = [] := List.length_eq_zero.mp (by omega)
    rw [hE]
    exact Blocks.nil
  | succ N ih =>
    intro es hlen hb
    by_cases hE : es = []
    · rw [hE]
      exact Blocks.nil
    · have h0 : (entryAt es 0).isHeader = true := hb.head hE
      obtain ⟨nm, hnm⟩ : ∃ nm, entryAt es 0 = .Header nm := by
        cases hcase : entryAt es 0 with
        | Header a => exact ⟨a, rfl⟩
        | Match a b =>
          rw [hcase] at h0
          simp [EntryType.isHeader] at h0
      have hlpos : 0 < es.length := List.length_pos.mpr hE
      have hlen2 : 1 < es.length := (hb.succ 0 hlpos h0).1
      have hnot1 : (entryAt es 1).isHeader = false := (hb.succ 0 hlpos h0).2
      obtain ⟨hge, hle, hhdr, hbtw⟩ := findHeaderFwd_spec es 1 (by omega)
      set n := findHeaderFwd es 1 with hn
      have hn2 : 2 ≤ n := by
        by_contra hcon
        have hn1 : n = 1 := by omega
        rcases Nat.lt_or_ge n es.length with hlt | hge2
        · have hh := hhdr hlt
          rw [hn1] at hh
          rw [hnot1] at hh
          exact absurd hh (by simp)
        · omega
      set ms := (es.drop 1).take (n - 1) with hms
      set rest := es.drop n with hrest
      have hsplit : es = EntryType.Header nm :: (ms ++ rest) := by
        have e3 : ms ++ rest = es.drop 1 := by
          rw [hms, hrest]
          have e4 : (es.drop 1).drop (n - 1) = es.drop n := by
            rw [List.drop_drop]
            congr 1
            omega
          rw [← e4]
          exact List.take_append_drop _ _
        calc es = es.drop 0 := (List.drop_zero es).symm
          _ = entryAt es 0 :: es.drop 1 := entryAt_cons_drop hlpos
          _ = EntryType.Header nm :: (ms ++ rest) := by rw [hnm, e3]
      have hmslen : ms.length = n - 1 := by
        rw [hms]
        simp
        omega
      have hmsne : ms ≠ [] := by
        apply List.ne_nil_of_length_pos
        omega
      have hmsmem : ∀ e ∈ ms, e.isMatch = true := by
        intro e he
        rw [List.mem_iff_getElem] at he
        obtain ⟨j, hj, hje⟩ := he
        rw [hmslen] at hj
        have hent : entryAt ms j = e := by
          rw [entryAt_eq_getElem (by rw [hmslen]; omega)]
          exact hje
        rw [hms, entryAt_take (by omega), entryAt_drop] at hent
        have hnothdr : (entryAt es (1 + j)).isHeader = false := hbtw (1 + j) (by omega) (by omega)
        rw [hent] at hnothdr
        exact isMatch_of_not_isHeader hnothdr
      have hrestlen : rest.length = es.length - n := by
        rw [hrest]
        simp
      have hrestinv : BlockInv rest := by
        constructor
        · intro hne
          have hpos : 0 < rest.length := List.length_pos.mpr hne
          rw [hrest, entryAt_drop, Nat.add_zero]
          apply hhdr
          omega
        · intro i hi hh
          rw [hrest, entryAt_drop] at hh
          have hs := hb.succ (n + i) (by omega) hh
          refine ⟨by omega, ?_⟩
          rw [hrest, entryAt_drop]
          have he : n + (i + 1) = n + i + 1 := by omega
          rw [he]
          exact hs.2
      have hrestblocks : Blocks rest := ih rest (by omega) hrestinv
      rw [hsplit]
      exact Blocks.block nm ms rest hmsne hmsmem hrestblocks

theorem BlockInv.toBlocks {es : List EntryType} (hb : BlockInv es) : Blocks es :=
  blockInv_blocks_aux es.length es (Nat.le_refl _) hb

/-! ### Small helper characterizations used by the claim theorems -/

theorem next_match_entries (rl : ResultList) : rl.next_match.entries = rl.entries := by
  unfold ResultList.next_match
  split
  · rfl
  · rfl

theorem add_entry_entries (rl : ResultList) (g : List EntryType) :
    (rl.add_entry g).entries = rl.entries ++ g := by
  cases hst : rl.state with
  | none => simp [ResultList.add_entry, hst, next_match_entries]
  | some i => simp [ResultList.add_entry, hst]

theorem headers_count_decomp (A : List EntryType) (name : String)
    (ms B : List EntryType) (hmm : ∀ e ∈ ms, e.isMatch = true) :
    ((A ++ (EntryType.Header name :: ms) ++ B).filter (fun e => e.isHeader)).length
      = (A.filter (fun e => e.isHeader)).length + 1
        + (B.filter (fun e => e.isHeader)).length := by
  have hmsnil : ms.filter (fun e => e.isHeader) = [] := by
    rw [List.filter_eq_nil_iff]
    intro a ha
    rw [isHeader_false_of_isMatch (hmm a ha)]
    simp
  rw [List.filter_append, List.filter_append,
    List.filter_cons_of_pos (by rfl), hmsnil]
  simp
  omega

theorem matches_count_decomp (A : List EntryType) (name : String)
    (ms B : List EntryType) (hmm : ∀ e ∈ ms, e.isMatch = true) :
    ((A ++ (EntryType.Header name :: ms) ++ B).filter (fun e => e.isMatch)).length
      = (A.filter (fun e => e.isMatch)).length + ms.length
        + (B.filter (fun e => e.isMatch)).length := by
  have hmsself : ms.filter (fun e => e.isMatch) = ms := List.filter_eq_self.mpr hmm
  rw [List.filter_append, List.filter_append,
    List.filter_cons_of_neg (by simp [EntryType.isMatch]), hmsself]
  simp
  omega

theorem structured_eraseIdx (A : List EntryType) (name : String)
    (ms B : List EntryType) {s : Nat}
    (hlo : A.length < s) (hmslt : s - A.length - 1 < ms.length) :
    (A ++ (EntryType.Header name :: ms) ++ B).eraseIdx s
      = A ++ (EntryType.Header name :: ms.eraseIdx (s - A.length - 1)) ++ B := by
  set j := s - A.length - 1 with hj
  have e1 : A ++ (EntryType.Header name :: ms) ++ B
      = (A ++ [EntryType.Header name]) ++ (ms ++ B) := by
    simp
  have e2 : s = (A ++ [EntryType.Header name]).length + j := by
    simp [hj]
    omega
  rw [e1, e2, eraseIdx_append_right, List.eraseIdx_append_of_lt_length hmslt]
  simp

/-- C10: when a selection already exists, `add_entry` only appends the group at
the end of the sequence and leaves the selection index unchanged (the
`next_match` re-initialization runs only from the no-selection state). -/
theorem C10_add_entry_frame {rl : ResultList} {g : List EntryType} {i : Nat}
    (hi : rl.state = some i) :
    (rl.add_entry g).state = some i ∧ (rl.add_entry g).entries = rl.entries ++ g := by
  have heq : rl.add_entry g = ⟨rl.entries ++ g, some i⟩ := by
    simp [ResultList.add_entry, hi]
  rw [heq]
  exact ⟨rfl, rfl⟩

/-- C10 witness: a concrete two-entry list with selection 1; appending another
group keeps the selection at 1 and appends the entries. -/
theorem C10_add_entry_frame_witness :
    ((ResultList.mk [EntryType.Header "a", EntryType.Match 1 "x"] (some 1)).add_entry
        [EntryType.Header "b", EntryType.Match 2 "y"]).state = some 1 ∧
    ((ResultList.mk [EntryType.Header "a", EntryType.Match 1 "x"] (some 1)).add_entry
        [EntryType.Header "b", EntryType.Match 2 "y"]).entries
      = [EntryType.Header "a", EntryType.Match 1 "x"]
          ++ [EntryType.Header "b", EntryType.Match 2 "y"] :=
  C10_add_entry_frame rfl

/-- C7: from a selection not at the last entry, `next_match` then
`previous_match` restores the selection; at the last entry `next_match` is a
no-op, and at the first match `previous_match` is a no-op. -/
theorem C7_next_previous_match {rl : ResultList} (hInv : rl.Inv) {s : Nat}
    (hs : rl.state = some s) :
    (s ≠ rl.entries.length - 1 → rl.next_match.previous_match.state = some s) ∧
    (s = rl.entries.length - 1 → rl.next_match = rl) ∧
    (s = 1 → rl.previous_match = rl) := by
  have hE : rl.entries ≠ [] := hInv.entries_ne hs
  have hbd := hInv.selBound s hs
  have hm := hInv.selMatch s hs
  have h1s := hInv.sel_one_le hs
  have hrl : rl = ⟨rl.entries, some s⟩ := by
    have he : rl = ⟨rl.entries, rl.state⟩ := rfl
    rw [he, hs]
  refine ⟨?_, ?_, ?_⟩
  · intro hlast
    cases hcase : entryAt rl.entries (s + 1) with
    | Header nm =>
      have heq1 : rl.next_match = ⟨rl.entries, some (s + 2)⟩ := by
        simp [ResultList.next_match, ResultList.is_empty, List.isEmpty_iff, hE, hs,
          hlast, hcase]
      have hne1 : ¬(s + 2 = 1) := by omega
      have harith : s + 2 - 1 = s + 1 := by omega
      have heq2 : (ResultList.mk rl.entries (some (s + 2))).previous_match
          = ⟨rl.entries, some (s + 2 - 2)⟩ := by
        simp [ResultList.previous_match, ResultList.is_empty, List.isEmpty_iff, hE,
          hne1, harith, hcase]
      rw [heq1, heq2]
      have harith2 : s + 2 - 2 = s := by omega
      rw [harith2]
    | Match a b =>
      have heq1 : rl.next_match = ⟨rl.entries, some (s + 1)⟩ := by
        simp [ResultList.next_match, ResultList.is_empty, List.isEmpty_iff, hE, hs,
          hlast, hcase]
      have hne1 : ¬(s + 1 = 1) := by omega
      have harith : s + 1 - 1 = s := by omega
      obtain ⟨a2, b2, hcase2⟩ : ∃ a2 b2, entryAt rl.entries s = .Match a2 b2 := by
        cases hc : entryAt rl.entries s with
        | Header nm2 =>
          rw [hc] at hm
          simp [EntryType.isMatch] at hm
        | Match a2 b2 => exact ⟨a2, b2, rfl⟩
      have heq2 : (ResultList.mk rl.entries (some (s + 1))).previous_match
          = ⟨rl.entries, some (s + 1 - 1)⟩ := by
        simp [ResultList.previous_match, ResultList.is_empty, List.isEmpty_iff, hE,
          hne1, harith, hcase2]
      rw [heq1, heq2, harith]
  · intro hlast
    have heq : rl.next_match = ⟨rl.entries, some s⟩ := by
      simp [ResultList.next_match, ResultList.is_empty, List.isEmpty_iff, hE, hs, hlast]
    rw [heq, ← hrl]
  · intro hfirst
    have heq : rl.previous_match = ⟨rl.entries, some 1⟩ := by
      simp [ResultList.previous_match, ResultList.is_empty, List.isEmpty_iff, hE, hs, hfirst]
    rw [heq]
    rw [hfirst] at hrl
    rw [← hrl]

/-- C7 witness: on the concrete list `[Header a, Match, Match]` with selection
1 (not the last entry), next then previous returns to 1; and the boundary
no-ops hold on selection 2 (last) and 1 (first). -/
theorem C7_next_previous_match_witness :
    (1 ≠ (ResultList.mk [EntryType.Header "a", EntryType.Match 1 "x",
        EntryType.Match 2 "y"] (some 1)).entries.length - 1 →
      (ResultList.mk [EntryType.Header "a", EntryType.Match 1 "x",
        EntryType.Match 2 "y"] (some 1)).next_match.previous_match.state = some 1) ∧
    (1 = (ResultList.mk [EntryType.Header "a", EntryType.Match 1 "x",
        EntryType.Match 2 "y"] (some 1)).entries.length - 1 →
      (ResultList.mk [EntryType.Header "a", EntryType.Match 1 "x",
        EntryType.Match 2 "y"] (some 1)).next_match
        = ResultList.mk [EntryType.Header "a", EntryType.Match 1 "x",
            EntryType.Match 2 "y"] (some 1)) ∧
    (1 = 1 →
      (ResultList.mk [EntryType.Header "a", EntryType.Match 1 "x",
        EntryType.Match 2 "y"] (some 1)).previous_match
        = ResultList.mk [EntryType.Header "a", EntryType.Match 1 "x",
            EntryType.Match 2 "y"] (some 1)) :=
  C7_next_previous_match (invCheck_sound (by decide)) rfl

/-- C1: in any reachable state whose entries satisfy the block structure,
after any public operation the selection, when present, is an in-bounds index
of a `Match` entry, never a `Header`. -/
theorem C1_selection_on_match {rl rl1 : ResultList} (hr : Reachable rl)
    (hb : Blocks rl.entries) (hop : PublicOp rl rl1) :
    ∀ i, rl1.state = some i → i < rl1.entries.length ∧
      (entryAt rl1.entries i).isMatch = true ∧
      (entryAt rl1.entries i).isHeader = false := by
  intro i hi
  have hInv := reachable_inv (publicOp_reachable hr hop)
  have h1 := hInv.selBound i hi
  have h2 := hInv.selMatch i hi
  exact ⟨h1, h2, isHeader_false_of_isMatch h2⟩

/-- C1 witness: after `top` on a freshly built one-group list, the selection
is index 1 which holds a `Match`. -/
theorem C1_selection_on_match_witness :
    1 < ((ResultList.new.add_entry
        [EntryType.Header "a", EntryType.Match 1 "x"]).top).entries.length ∧
    (entryAt ((ResultList.new.add_entry
        [EntryType.Header "a", EntryType.Match 1 "x"]).top).entries 1).isMatch = true ∧
    (entryAt ((ResultList.new.add_entry
        [EntryType.Header "a", EntryType.Match 1 "x"]).top).entries 1).isHeader = false :=
  C1_selection_on_match
    (Reachable.add_entry Reachable.new (by decide))
    (BlockInv.toBlocks (blockCheck_sound (by decide)))
    (PublicOp.top _) 1 (by decide)

/-- C2: every reachable entry sequence decomposes into contiguous
(Header, Match+) blocks; when non-empty it starts with a header, and every
header is immediately followed (in bounds) by a match, so no header is
adjacent to another header and none lacks a following match. -/
theorem C2_block_structure {rl : ResultList} (hr : Reachable rl) :
    Blocks rl.entries ∧
    (rl.entries ≠ [] → (entryAt rl.entries 0).isHeader = true) ∧
    (∀ i, i < rl.entries.length → (entryAt rl.entries i).isHeader = true →
      i + 1 < rl.entries.length ∧ (entryAt rl.entries (i + 1)).isMatch = true) := by
  have hInv := reachable_inv hr
  refine ⟨hInv.blocks.toBlocks, hInv.blocks.head, ?_⟩
  intro i hi hh
  have := hInv.blocks.succ i hi hh
  exact ⟨this.1, isMatch_of_not_isHeader this.2⟩

/-- C2 witness: a list built from two well-formed groups followed by a
removal still satisfies the block structure. -/
theorem C2_block_structure_witness :
    Blocks ((ResultList.new.add_entry [EntryType.Header "a", EntryType.Match 1 "x"]).add_entry
        [EntryType.Header "b", EntryType.Match 2 "y"]).remove_current_entry.entries ∧
    (((ResultList.new.add_entry [EntryType.Header "a", EntryType.Match 1 "x"]).add_entry
        [EntryType.Header "b", EntryType.Match 2 "y"]).remove_current_entry.entries ≠ [] →
      (entryAt ((ResultList.new.add_entry [EntryType.Header "a", EntryType.Match 1 "x"]).add_entry
        [EntryType.Header "b", EntryType.Match 2 "y"]).remove_current_entry.entries 0).isHeader = true) ∧
    (∀ i, i < ((ResultList.new.add_entry [EntryType.Header "a", EntryType.Match 1 "x"]).add_entry
        [EntryType.Header "b", EntryType.Match 2 "y"]).remove_current_entry.entries.length →
      (entryAt ((ResultList.new.add_entry [EntryType.Header "a", EntryType.Match 1 "x"]).add_entry
        [EntryType.Header "b", EntryType.Match 2 "y"]).remove_current_entry.entries i).isHeader = true →
      i + 1 < ((ResultList.new.add_entry [EntryType.Header "a", EntryType.Match 1 "x"]).add_entry
        [EntryType.Header "b", EntryType.Match 2 "y"]).remove_current_entry.entries.length ∧
      (entryAt ((ResultList.new.add_entry [EntryType.Header "a", EntryType.Match 1 "x"]).add_entry
        [EntryType.Header "b", EntryType.Match 2 "y"]).remove_current_entry.entries (i + 1)).isMatch = true) :=
  C2_block_structure
    (Reachable.remove_current_entry
      (Reachable.add_entry (Reachable.add_entry Reachable.new (by decide)) (by decide)))

/-- C8: in every reachable state the selection is `none` exactly when the
sequence is empty; in particular `add_entry` on an empty list establishes a
selection, `clear` resets it, and neither removal leaves a non-empty list
without a selection. -/
theorem C8_selection_iff_empty {rl : ResultList} (hr : Reachable rl) :
    (rl.state = none ↔ rl.entries = []) ∧
    (∀ g, isWellFormedGroup g = true → rl.entries = [] →
      (rl.add_entry g).state.isSome = true) ∧
    rl.clear.state = none ∧
    (rl.remove_current_entry.entries ≠ [] →
      rl.remove_current_entry.state.isSome = true) ∧
    (rl.remove_current_file.entries ≠ [] →
      rl.remove_current_file.state.isSome = true) := by
  have hInv := reachable_inv hr
  refine ⟨hInv.selNone, ?_, rfl, ?_, ?_⟩
  · intro g hg hE
    obtain ⟨nm, rest, hg_eq, hrest, _⟩ := wellFormedGroup_parts hg
    have hInv2 := inv_add_entry hInv hg
    cases hcase : (rl.add_entry g).state with
    | none =>
      have h2 := hInv2.selNone.mp hcase
      rw [add_entry_entries] at h2
      rw [List.append_eq_nil] at h2
      rw [hg_eq] at h2
      exact absurd h2.2 (by simp)
    | some i => rfl
  · intro hne
    have hInv2 := inv_remove_current_entry hInv
    cases hcase : rl.remove_current_entry.state with
    | none => exact absurd (hInv2.selNone.mp hcase) hne
    | some i => rfl
  · intro hne
    have hInv2 := inv_remove_current_file hInv
    cases hcase : rl.remove_current_file.state with
    | none => exact absurd (hInv2.selNone.mp hcase) hne
    | some i => rfl

/-- C8 witness: instantiated on a freshly built one-group list. -/
theorem C8_selection_iff_empty_witness :
    ((ResultList.new.add_entry [EntryType.Header "a", EntryType.Match 1 "x"]).state = none
      ↔ (ResultList.new.add_entry [EntryType.Header "a", EntryType.Match 1 "x"]).entries = []) ∧
    (∀ g, isWellFormedGroup g = true →
      (ResultList.new.add_entry [EntryType.Header "a", EntryType.Match 1 "x"]).entries = [] →
      ((ResultList.new.add_entry [EntryType.Header "a", EntryType.Match 1 "x"]).add_entry g).state.isSome = true) ∧
    (ResultList.new.add_entry [EntryType.Header "a", EntryType.Match 1 "x"]).clear.state = none ∧
    ((ResultList.new.add_entry [EntryType.Header "a", EntryType.Match 1 "x"]).remove_current_entry.entries ≠ [] →
      (ResultList.new.add_entry [EntryType.Header "a", EntryType.Match 1 "x"]).remove_current_entry.state.isSome = true) ∧
    ((ResultList.new.add_entry [EntryType.Header "a", EntryType.Match 1 "x"]).remove_current_file.entries ≠ [] →
      (ResultList.new.add_entry [EntryType.Header "a", EntryType.Match 1 "x"]).remove_current_file.state.isSome = true) :=
  C8_selection_iff_empty (Reachable.add_entry Reachable.new (by decide))

/-! ### The selected-entry scan succeeds under the invariant -/

theorem selectedScan_some {es : List EntryType} :
    ∀ s ln, ((entryAt es s).isMatch = true ∨ ln.isSome = true) →
      (∃ j, j ≤ s ∧ (entryAt es j).isHeader = true) →
      ∃ p, selectedScan es s ln = some (some p) := by
  intro s
  induction s with
  | zero =>
    intro ln hor hex
    obtain ⟨j, hj, hjh⟩ := hex
    have hj0 : j = 0 := by omega
    subst hj0
    obtain ⟨a, ha⟩ : ∃ a, entryAt es 0 = .Header a := by
      cases hcase : entryAt es 0 with
      | Header a => exact ⟨a, rfl⟩
      | Match a b =>
        rw [hcase] at hjh
        simp [EntryType.isHeader] at hjh
    rcases hor with hm | hsome
    · rw [isHeader_false_of_isMatch hm] at hjh
      exact absurd hjh (by simp)
    · obtain ⟨l, hl⟩ : ∃ l, ln = some l := by
        cases hc : ln with
        | none =>
          rw [hc] at hsome
          simp at hsome
        | some l => exact ⟨l, rfl⟩
      refine ⟨(a, l), ?_⟩
      rw [hl]
      unfold selectedScan
      rw [ha]
  | succ k ih =>
    intro ln hor hex
    cases hcase : entryAt es (k + 1) with
    | Header a =>
      rcases hor with hm | hsome
      · rw [hcase] at hm
        simp [EntryType.isMatch] at hm
      · obtain ⟨l, hl⟩ : ∃ l, ln = some l := by
          cases hc : ln with
          | none =>
            rw [hc] at hsome
            simp at hsome
          | some l => exact ⟨l, rfl⟩
        refine ⟨(a, l), ?_⟩
        rw [hl]
        unfold selectedScan
        rw [hcase]
    | Match a b =>
      have hex2 : ∃ j, j ≤ k ∧ (entryAt es j).isHeader = true := by
        obtain ⟨j, hj, hjh⟩ := hex
        rcases Nat.lt_or_ge j (k + 1) with h | h
        · exact ⟨j, by omega, hjh⟩
        · have hj1 : j = k + 1 := by omega
          rw [hj1, hcase] at hjh
          simp [EntryType.isHeader] at hjh
      have hrec := ih (if ln.isNone then some a else ln) (Or.inr (by cases ln <;> simp)) hex2
      obtain ⟨p, hp⟩ := hrec
      refine ⟨p, ?_⟩
      unfold selectedScan
      rw [hcase]
      exact hp

/-- C9: under the data-model invariant, the internal partial operations are
safe: `get_selected_entry` neither panics on its line-number unwrap nor falls
off the scan (it returns `Some`), the index arithmetic of
`is_last_match_in_file` stays in bounds (the selected index is at least 1,
below the length, and `selected + 1` is only inspected when it is in bounds),
and the `selected - 1` of `remove_current_entry_and_select_previous` cannot
underflow. -/
theorem C9_internal_safety {rl : ResultList} (hInv : rl.Inv) {s : Nat}
    (hs : rl.state = some s) :
    (∃ p, rl.get_selected_entry = some (some p)) ∧
    1 ≤ s ∧ s < rl.entries.length ∧
    (s ≠ rl.entries.length - 1 → s + 1 < rl.entries.length) := by
  have hbd := hInv.selBound s hs
  have hm := hInv.selMatch s hs
  have h1s := hInv.sel_one_le hs
  have hE : rl.entries ≠ [] := hInv.entries_ne hs
  refine ⟨?_, h1s, hbd, by omega⟩
  have hscan := selectedScan_some s (none : Option Nat) (Or.inl hm)
    ⟨0, by omega, hInv.blocks.head hE⟩
  obtain ⟨p, hp⟩ := hscan
  refine ⟨p, ?_⟩
  unfold ResultList.get_selected_entry
  rw [hs]
  exact hp

/-- C9 witness: on a concrete two-file list with selection 2,
`get_selected_entry` returns `Some` and the index bounds hold. -/
theorem C9_internal_safety_witness :
    (∃ p, (ResultList.mk [EntryType.Header "a", EntryType.Match 1 "x",
        EntryType.Match 2 "y", EntryType.Header "b", EntryType.Match 3 "z"]
        (some 2)).get_selected_entry = some (some p)) ∧
    1 ≤ 2 ∧ 2 < (ResultList.mk [EntryType.Header "a", EntryType.Match 1 "x",
        EntryType.Match 2 "y", EntryType.Header "b", EntryType.Match 3 "z"]
        (some 2)).entries.length ∧
    (2 ≠ (ResultList.mk [EntryType.Header "a", EntryType.Match 1 "x",
        EntryType.Match 2 "y", EntryType.Header "b", EntryType.Match 3 "z"]
        (some 2)).entries.length - 1 →
      2 + 1 < (ResultList.mk [EntryType.Header "a", EntryType.Match 1 "x",
        EntryType.Match 2 "y", EntryType.Header "b", EntryType.Match 3 "z"]
        (some 2)).entries.length) :=
  C9_internal_safety (invCheck_sound (by decide)) rfl

/-- C3: `remove_current_file` removes the span from the nearest header at or
before the selection up to (excluding) the next header or the end; if the
result is empty the selection becomes `none`; if the selected index was not 1
the selection becomes `max (header_index - 1) 1`, which resolves to a match
(the last match of the previous file, or the first-match slot when clamped);
if the selected index was 1 the selection is left untouched and points at the
new first match. -/
theorem C3_remove_current_file_selection {rl : ResultList} (hInv : rl.Inv)
    {s : Nat} (hs : rl.state = some s) :
    ∃ h n, h ≤ s ∧ s < n ∧ n ≤ rl.entries.length ∧
      (entryAt rl.entries h).isHeader = true ∧
      (∀ j, h < j → j ≤ s → (entryAt rl.entries j).isHeader = false) ∧
      (n = rl.entries.length ∨ (entryAt rl.entries n).isHeader = true) ∧
      (∀ j, s ≤ j → j < n → (entryAt rl.entries j).isHeader = false) ∧
      rl.remove_current_file.entries = rl.entries.take h ++ rl.entries.drop n ∧
      (rl.remove_current_file.entries = [] → rl.remove_current_file.state = none) ∧
      (rl.remove_current_file.entries ≠ [] → s ≠ 1 →
        rl.remove_current_file.state = some (max (h - 1) 1) ∧
        (entryAt rl.remove_current_file.entries (max (h - 1) 1)).isMatch = true) ∧
      (rl.remove_current_file.entries ≠ [] → s = 1 →
        rl.remove_current_file.state = rl.state ∧
        (entryAt rl.remove_current_file.entries 1).isMatch = true) := by
  have hbd := hInv.selBound s hs
  have hm := hInv.selMatch s hs
  obtain ⟨A, nm, ms, B, hsplit, hfb, hff, hmsne, hmm, hB, hA, hlo, hhi⟩ :=
    decompose_at_selection hInv.blocks hbd hm
  have hrl : rl = ⟨A ++ (EntryType.Header nm :: ms) ++ B, some s⟩ := by
    have he : rl = ⟨rl.entries, rl.state⟩ := rfl
    rw [he, hsplit, hs]
  have hlen : rl.entries.length = A.length + 1 + ms.length + B.length := by
    rw [hsplit]
    exact structured_length A nm ms B
  have hrem : rl.remove_current_file
      = ⟨A ++ B,
         if (A ++ B).isEmpty then none
         else if s ≠ 1 then some (max (A.length - 1) 1) else some s⟩ := by
    conv_lhs => rw [hrl]
    exact remove_current_file_structured A nm ms B s hmm hB hlo hhi
  have htake : rl.entries.take A.length = A := by
    rw [hsplit, List.append_assoc]
    exact List.take_left _ _
  have hdrop : rl.entries.drop (A.length + 1 + ms.length) = B := by
    rw [hsplit]
    have he : A.length + 1 + ms.length = (A ++ (EntryType.Header nm :: ms)).length := by
      simp
      omega
    rw [he]
    exact List.drop_left _ _
  have hInvRes := inv_remove_current_file hInv
  refine ⟨A.length, A.length + 1 + ms.length, by omega, by omega, by omega,
    ?_, ?_, ?_, ?_, ?_, ?_, ?_, ?_⟩
  · rw [hsplit, structured_entryAt_header A nm ms B]
    rfl
  · intro j h1 h2
    rw [hsplit]
    exact structured_entryAt_ms hmm h1 (by omega)
  · rcases hB with hBe | hBh
    · left
      rw [hlen, hBe]
      simp
    · right
      rw [hsplit, structured_entryAt_after A nm ms B (Nat.le_refl _)]
      simpa using hBh
  · intro j h1 h2
    rw [hsplit]
    exact structured_entryAt_ms hmm (by omega) (by omega)
  · rw [hrem, htake, hdrop]
  · intro hEmp
    rw [hrem] at hEmp ⊢
    simp only at hEmp
    rw [if_pos (by simp [hEmp])]
  · intro hne hs1
    rw [hrem] at hne
    simp only at hne
    have hstate : rl.remove_current_file.state = some (max (A.length - 1) 1) := by
      rw [hrem]
      simp only
      rw [if_neg (by simpa [List.isEmpty_iff] using hne), if_pos hs1]
    exact ⟨hstate, hInvRes.selMatch _ hstate⟩
  · intro hne hs1
    rw [hrem] at hne
    simp only at hne
    have hstate : rl.remove_current_file.state = some s := by
      rw [hrem]
      simp only
      rw [if_neg (by simpa [List.isEmpty_iff] using hne), if_neg (by omega)]
    refine ⟨by rw [hstate, hs], ?_⟩
    have hstate1 : rl.remove_current_file.state = some 1 := by
      rw [hstate, hs1]
    exact hInvRes.selMatch _ hstate1

/-- C3 witness: the two-file list with the selection on the second file's
match; removing that file keeps the first block and moves the selection to
its last match. -/
theorem C3_remove_current_file_selection_witness :
    ∃ h n, h ≤ 4 ∧ 4 < n ∧
      n ≤ (ResultList.mk [EntryType.Header "a", EntryType.Match 1 "x",
        EntryType.Match 2 "y", EntryType.Header "b", EntryType.Match 3 "z"]
        (some 4)).entries.length ∧
      (entryAt (ResultList.mk [EntryType.Header "a", EntryType.Match 1 "x",
        EntryType.Match 2 "y", EntryType.Header "b", EntryType.Match 3 "z"]
        (some 4)).entries h).isHeader = true ∧
      (∀ j, h < j → j ≤ 4 → (entryAt (ResultList.mk [EntryType.Header "a",
        EntryType.Match 1 "x", EntryType.Match 2 "y", EntryType.Header "b",
        EntryType.Match 3 "z"] (some 4)).entries j).isHeader = false) ∧
      (n = (ResultList.mk [EntryType.Header "a", EntryType.Match 1 "x",
        EntryType.Match 2 "y", EntryType.Header "b", EntryType.Match 3 "z"]
        (some 4)).entries.length ∨
        (entryAt (ResultList.mk [EntryType.Header "a", EntryType.Match 1 "x",
        EntryType.Match 2 "y", EntryType.Header "b", EntryType.Match 3 "z"]
        (some 4)).entries n).isHeader = true) ∧
      (∀ j, 4 ≤ j → j < n → (entryAt (ResultList.mk [EntryType.Header "a",
        EntryType.Match 1 "x", EntryType.Match 2 "y", EntryType.Header "b",
        EntryType.Match 3 "z"] (some 4)).entries j).isHeader = false) ∧
      (ResultList.mk [EntryType.Header "a", EntryType.Match 1 "x",
        EntryType.Match 2 "y", EntryType.Header "b", EntryType.Match 3 "z"]
        (some 4)).remove_current_file.entries
        = (ResultList.mk [EntryType.Header "a", EntryType.Match 1 "x",
        EntryType.Match 2 "y", EntryType.Header "b", EntryType.Match 3 "z"]
        (some 4)).entries.take h
          ++ (ResultList.mk [EntryType.Header "a", EntryType.Match 1 "x",
        EntryType.Match 2 "y", EntryType.Header "b", EntryType.Match 3 "z"]
        (some 4)).entries.drop n ∧
      ((ResultList.mk [EntryType.Header "a", EntryType.Match 1 "x",
        EntryType.Match 2 "y", EntryType.Header "b", EntryType.Match 3 "z"]
        (some 4)).remove_current_file.entries = [] →
        (ResultList.mk [EntryType.Header "a", EntryType.Match 1 "x",
        EntryType.Match 2 "y", EntryType.Header "b", EntryType.Match 3 "z"]
        (some 4)).remove_current_file.state = none) ∧
      ((ResultList.mk [EntryType.Header "a", EntryType.Match 1 "x",
        EntryType.Match 2 "y", EntryType.Header "b", EntryType.Match 3 "z"]
        (some 4)).remove_current_file.entries ≠ [] → 4 ≠ 1 →
        (ResultList.mk [EntryType.Header "a", EntryType.Match 1 "x",
        EntryType.Match 2 "y", EntryType.Header "b", EntryType.Match 3 "z"]
        (some 4)).remove_current_file.state = some (max (h - 1) 1) ∧
        (entryAt (ResultList.mk [EntryType.Header "a", EntryType.Match 1 "x",
        EntryType.Match 2 "y", EntryType.Header "b", EntryType.Match 3 "z"]
        (some 4)).remove_current_file.entries (max (h - 1) 1)).isMatch = true) ∧
      ((ResultList.mk [EntryType.Header "a", EntryType.Match 1 "x",
        EntryType.Match 2 "y", EntryType.Header "b", EntryType.Match 3 "z"]
        (some 4)).remove_current_file.entries ≠ [] → 4 = 1 →
        (ResultList.mk [EntryType.Header "a", EntryType.Match 1 "x",
        EntryType.Match 2 "y", EntryType.Header "b", EntryType.Match 3 "z"]
        (some 4)).remove_current_file.state
          = (ResultList.mk [EntryType.Header "a", EntryType.Match 1 "x",
        EntryType.Match 2 "y", EntryType.Header "b", EntryType.Match 3 "z"]
        (some 4)).state ∧
        (entryAt (ResultList.mk [EntryType.Header "a", EntryType.Match 1 "x",
        EntryType.Match 2 "y", EntryType.Header "b", EntryType.Match 3 "z"]
        (some 4)).remove_current_file.entries 1).isMatch = true) :=
  C3_remove_current_file_selection (invCheck_sound (by decide)) rfl

/-- C6: `remove_current_file` removes exactly one contiguous span of one
header and all of its matches (the span is a complete group: the selection
lies inside it and what follows it is empty or the next header), keeping the
remaining entries in order; the match count drops by exactly the file's match
count and the header count by exactly one. -/
theorem C6_remove_current_file_counts {rl : ResultList} (hInv : rl.Inv)
    {s : Nat} (hs : rl.state = some s) :
    ∃ A name ms B, rl.entries = A ++ (EntryType.Header name :: ms) ++ B ∧
      ms ≠ [] ∧ (∀ e ∈ ms, e.isMatch = true) ∧
      (B = [] ∨ (entryAt B 0).isHeader = true) ∧
      A.length < s ∧ s ≤ A.length + ms.length ∧
      rl.remove_current_file.entries = A ++ B ∧
      rl.remove_current_file.get_number_of_matches + ms.length
        = rl.get_number_of_matches ∧
      rl.remove_current_file.get_number_of_file_entries + 1
        = rl.get_number_of_file_entries := by
  have hbd := hInv.selBound s hs
  have hm := hInv.selMatch s hs
  obtain ⟨A, nm, ms, B, hsplit, hfb, hff, hmsne, hmm, hB, hA, hlo, hhi⟩ :=
    decompose_at_selection hInv.blocks hbd hm
  have hrl : rl = ⟨A ++ (EntryType.Header nm :: ms) ++ B, some s⟩ := by
    have he : rl = ⟨rl.entries, rl.state⟩ := rfl
    rw [he, hsplit, hs]
  have hrem : rl.remove_current_file
      = ⟨A ++ B,
         if (A ++ B).isEmpty then none
         else if s ≠ 1 then some (max (A.length - 1) 1) else some s⟩ := by
    conv_lhs => rw [hrl]
    exact remove_current_file_structured A nm ms B s hmm hB hlo hhi
  have hentries : rl.remove_current_file.entries = A ++ B := by
    rw [hrem]
  refine ⟨A, nm, ms, B, hsplit, hmsne, hmm, hB, hlo, hhi, hentries, ?_, ?_⟩
  · unfold ResultList.get_number_of_matches
    rw [hentries, hsplit, matches_count_decomp A nm ms B hmm, List.filter_append]
    simp
    omega
  · unfold ResultList.get_number_of_file_entries
    rw [hentries, hsplit, headers_count_decomp A nm ms B hmm, List.filter_append]
    simp
    omega

/-- C6 witness: removing the selected first file of the concrete two-file
list drops two matches and one header. -/
theorem C6_remove_current_file_counts_witness :
    ∃ A name ms B,
      (ResultList.mk [EntryType.Header "a", EntryType.Match 1 "x",
        EntryType.Match 2 "y", EntryType.Header "b", EntryType.Match 3 "z"]
        (some 2)).entries = A ++ (EntryType.Header name :: ms) ++ B ∧
      ms ≠ [] ∧ (∀ e ∈ ms, e.isMatch = true) ∧
      (B = [] ∨ (entryAt B 0).isHeader = true) ∧
      A.length < 2 ∧ 2 ≤ A.length + ms.length ∧
      (ResultList.mk [EntryType.Header "a", EntryType.Match 1 "x",
        EntryType.Match 2 "y", EntryType.Header "b", EntryType.Match 3 "z"]
        (some 2)).remove_current_file.entries = A ++ B ∧
      (ResultList.mk [EntryType.Header "a", EntryType.Match 1 "x",
        EntryType.Match 2 "y", EntryType.Header "b", EntryType.Match 3 "z"]
        (some 2)).remove_current_file.get_number_of_matches + ms.length
        = (ResultList.mk [EntryType.Header "a", EntryType.Match 1 "x",
        EntryType.Match 2 "y", EntryType.Header "b", EntryType.Match 3 "z"]
        (some 2)).get_number_of_matches ∧
      (ResultList.mk [EntryType.Header "a", EntryType.Match 1 "x",
        EntryType.Match 2 "y", EntryType.Header "b", EntryType.Match 3 "z"]
        (some 2)).remove_current_file.get_number_of_file_entries + 1
        = (ResultList.mk [EntryType.Header "a", EntryType.Match 1 "x",
        EntryType.Match 2 "y", EntryType.Header "b", EntryType.Match 3 "z"]
        (some 2)).get_number_of_file_entries :=
  C6_remove_current_file_counts (invCheck_sound (by decide)) rfl

/-- C4: `remove_current_entry` delegates to `remove_current_file` exactly when
the selected match is the last remaining match of its group (predecessor is a
header, successor is the end or a header); otherwise it erases just the
selected entry and the selection moves back by one exactly when the old index
falls out of bounds or the entry sliding into it is a header, staying
unchanged otherwise. -/
theorem C4_remove_current_entry_cases {rl : ResultList} (hInv : rl.Inv)
    {s : Nat} (hs : rl.state = some s) :
    ((entryAt rl.entries (s - 1)).isHeader = true ∧
        (s = rl.entries.length - 1 ∨ (entryAt rl.entries (s + 1)).isHeader = true) →
      rl.remove_current_entry = rl.remove_current_file) ∧
    (¬((entryAt rl.entries (s - 1)).isHeader = true ∧
        (s = rl.entries.length - 1 ∨ (entryAt rl.entries (s + 1)).isHeader = true)) →
      rl.remove_current_entry.entries = rl.entries.eraseIdx s ∧
      rl.remove_current_entry.state =
        some (if rl.entries.length - 1 ≤ s ∨
                (entryAt (rl.entries.eraseIdx s) s).isHeader = true
              then s - 1 else s)) := by
  have hbd := hInv.selBound s hs
  have hm := hInv.selMatch s hs
  obtain ⟨A, nm, ms, B, hsplit, hfb, hff, hmsne, hmm, hB, hA, hlo, hhi⟩ :=
    decompose_at_selection hInv.blocks hbd hm
  have hrl : rl = ⟨A ++ (EntryType.Header nm :: ms) ++ B, some s⟩ := by
    have he : rl = ⟨rl.entries, rl.state⟩ := rfl
    rw [he, hsplit, hs]
  have hlen : rl.entries.length = A.length + 1 + ms.length + B.length := by
    rw [hsplit]
    exact structured_length A nm ms B
  have hP1 : (entryAt rl.entries (s - 1)).isHeader = true ↔ s = A.length + 1 := by
    constructor
    · intro h
      by_contra hc
      have hfalse : (entryAt rl.entries (s - 1)).isHeader = false := by
        rw [hsplit]
        exact structured_entryAt_ms hmm (by omega) (by omega)
      rw [hfalse] at h
      exact absurd h (by simp)
    · intro h
      have he : s - 1 = A.length := by omega
      rw [hsplit, he, structured_entryAt_header]
      rfl
  have hP2 : (s = rl.entries.length - 1 ∨ (entryAt rl.entries (s + 1)).isHeader = true)
      ↔ s = A.length + ms.length := by
    constructor
    · intro h
      by_contra hc
      have hslt : s < A.length + ms.length := by omega
      rcases h with h | h
      · rw [hlen] at h
        omega
      · have hfalse : (entryAt rl.entries (s + 1)).isHeader = false := by
          rw [hsplit]
          exact structured_entryAt_ms hmm (by omega) (by omega)
        rw [hfalse] at h
        exact absurd h (by simp)
    · intro h
      rcases hB with hBe | hBh
      · left
        rw [hlen, hBe]
        simp
        omega
      · right
        have he : s + 1 = A.length + 1 + ms.length := by omega
        rw [hsplit, he, structured_entryAt_after A nm ms B (Nat.le_refl _)]
        simpa using hBh
  have hLast : ((entryAt rl.entries (s - 1)).isHeader = true ∧
      (s = rl.entries.length - 1 ∨ (entryAt rl.entries (s + 1)).isHeader = true))
      ↔ ms.length = 1 := by
    rw [hP1, hP2]
    omega
  constructor
  · intro h
    have h1 : ms.length = 1 := hLast.mp h
    conv_lhs => rw [hrl]
    conv_rhs => rw [hrl]
    exact remove_current_entry_structured_last A nm ms B s hmm hB hlo hhi h1
  · intro h
    have hne1 : ¬ ms.length = 1 := fun hc => h (hLast.mpr hc)
    have h2 : 2 ≤ ms.length := by
      have := List.length_pos.mpr hmsne
      omega
    have hmslt : s - A.length - 1 < ms.length := by omega
    set ms1 := ms.eraseIdx (s - A.length - 1) with hms1def
    have hms1len : ms1.length = ms.length - 1 := by
      rw [hms1def, List.length_eraseIdx]
      simp [hmslt]
    have hms1mem : ∀ e ∈ ms1, e.isMatch = true := by
      intro e he
      apply hmm
      rw [hms1def, List.eraseIdx_eq_take_drop_succ] at he
      rcases List.mem_append.mp he with hx | hx
      · exact List.take_subset _ _ hx
      · exact List.drop_subset _ _ hx
    have hrem : rl.remove_current_entry
        = ⟨A ++ (EntryType.Header nm :: ms1) ++ B,
           some (if s = A.length + ms.length then s - 1 else s)⟩ := by
      conv_lhs => rw [hrl]
      exact remove_current_entry_structured_not_last A nm ms B s hmm hB hlo hhi h2
    have herase : rl.entries.eraseIdx s = A ++ (EntryType.Header nm :: ms1) ++ B := by
      rw [hsplit]
      exact structured_eraseIdx A nm ms B hlo hmslt
    constructor
    · rw [hrem, herase]
    · rw [hrem]
      by_cases hc : s = A.length + ms.length
      · have hcond : rl.entries.length - 1 ≤ s ∨
            (entryAt (rl.entries.eraseIdx s) s).isHeader = true := by
          rcases hB with hBe | hBh
          · left
            rw [hlen, hBe]
            simp
            omega
          · right
            rw [herase]
            have he : s = A.length + 1 + ms1.length
                + (s - (A.length + 1 + ms1.length)) := by omega
            have he2 : A.length + 1 + ms1.length ≤ s := by omega
            rw [structured_entryAt_after A nm ms1 B he2]
            have he3 : s - (A.length + 1 + ms1.length) = 0 := by omega
            rw [he3]
            exact hBh
        rw [if_pos hc, if_pos hcond]
      · have hcond : ¬(rl.entries.length - 1 ≤ s ∨
            (entryAt (rl.entries.eraseIdx s) s).isHeader = true) := by
          push_neg
          constructor
          · omega
          · intro hx
            have hfalse : (entryAt (rl.entries.eraseIdx s) s).isHeader = false := by
              rw [herase]
              exact structured_entryAt_ms hms1mem (by omega) (by omega)
            rw [hfalse] at hx
            exact absurd hx (by simp)
        rw [if_neg hc, if_neg hcond]

/-- C4 witness: on the concrete two-file list with selection 2 (not the last
match of its group), removal erases just that entry and the selection stays
put. -/
theorem C4_remove_current_entry_cases_witness :
    ((entryAt (ResultList.mk [EntryType.Header "a", EntryType.Match 1 "x",
        EntryType.Match 2 "y", EntryType.Match 3 "w", EntryType.Header "b",
        EntryType.Match 4 "z"] (some 2)).entries (2 - 1)).isHeader = true ∧
        (2 = (ResultList.mk [EntryType.Header "a", EntryType.Match 1 "x",
        EntryType.Match 2 "y", EntryType.Match 3 "w", EntryType.Header "b",
        EntryType.Match 4 "z"] (some 2)).entries.length - 1 ∨
        (entryAt (ResultList.mk [EntryType.Header "a", EntryType.Match 1 "x",
        EntryType.Match 2 "y", EntryType.Match 3 "w", EntryType.Header "b",
        EntryType.Match 4 "z"] (some 2)).entries (2 + 1)).isHeader = true) →
      (ResultList.mk [EntryType.Header "a", EntryType.Match 1 "x",
        EntryType.Match 2 "y", EntryType.Match 3 "w", EntryType.Header "b",
        EntryType.Match 4 "z"] (some 2)).remove_current_entry
        = (ResultList.mk [EntryType.Header "a", EntryType.Match 1 "x",
        EntryType.Match 2 "y", EntryType.Match 3 "w", EntryType.Header "b",
        EntryType.Match 4 "z"] (some 2)).remove_current_file) ∧
    (¬((entryAt (ResultList.mk [EntryType.Header "a", EntryType.Match 1 "x",
        EntryType.Match 2 "y", EntryType.Match 3 "w", EntryType.Header "b",
        EntryType.Match 4 "z"] (some 2)).entries (2 - 1)).isHeader = true ∧
        (2 = (ResultList.mk [EntryType.Header "a", EntryType.Match 1 "x",
        EntryType.Match 2 "y", EntryType.Match 3 "w", EntryType.Header "b",
        EntryType.Match 4 "z"] (some 2)).entries.length - 1 ∨
        (entryAt (ResultList.mk [EntryType.Header "a", EntryType.Match 1 "x",
        EntryType.Match 2 "y", EntryType.Match 3 "w", EntryType.Header "b",
        EntryType.Match 4 "z"] (some 2)).entries (2 + 1)).isHeader = true)) →
      (ResultList.mk [EntryType.Header "a", EntryType.Match 1 "x",
        EntryType.Match 2 "y", EntryType.Match 3 "w", EntryType.Header "b",
        EntryType.Match 4 "z"] (some 2)).remove_current_entry.entries
        = (ResultList.mk [EntryType.Header "a", EntryType.Match 1 "x",
        EntryType.Match 2 "y", EntryType.Match 3 "w", EntryType.Header "b",
        EntryType.Match 4 "z"] (some 2)).entries.eraseIdx 2 ∧
      (ResultList.mk [EntryType.Header "a", EntryType.Match 1 "x",
        EntryType.Match 2 "y", EntryType.Match 3 "w", EntryType.Header "b",
        EntryType.Match 4 "z"] (some 2)).remove_current_entry.state =
        some (if (ResultList.mk [EntryType.Header "a", EntryType.Match 1 "x",
        EntryType.Match 2 "y", EntryType.Match 3 "w", EntryType.Header "b",
        EntryType.Match 4 "z"] (some 2)).entries.length - 1 ≤ 2 ∨
                (entryAt ((ResultList.mk [EntryType.Header "a", EntryType.Match 1 "x",
        EntryType.Match 2 "y", EntryType.Match 3 "w", EntryType.Header "b",
        EntryType.Match 4 "z"] (some 2)).entries.eraseIdx 2) 2).isHeader = true
              then 2 - 1 else 2)) :=
  C4_remove_current_entry_cases (invCheck_sound (by decide)) rfl

/-! ### Iterated entry removal refines file removal -/

theorem iterate_remove_entry_eq_remove_file :
    ∀ (k : Nat) (A : List EntryType) (name : String) (ms B : List EntryType) (s : Nat),
      ms.length = k → (∀ e ∈ ms, e.isMatch = true) →
      (B = [] ∨ (entryAt B 0).isHeader = true) →
      A.length < s → s ≤ A.length + ms.length →
      ResultList.remove_current_entry^[k]
          (ResultList.mk (A ++ (EntryType.Header name :: ms) ++ B) (some s))
        = (ResultList.mk (A ++ (EntryType.Header name :: ms) ++ B)
            (some s)).remove_current_file := by
  intro k
  induction k with
  | zero =>
    intro A name ms B s hk hmm hB hlo hhi
    omega
  | succ k ih =>
    intro A name ms B s hk hmm hB hlo hhi
    rw [Function.iterate_succ_apply]
    by_cases hk0 : k = 0
    · have h1 : ms.length = 1 := by omega
      rw [remove_current_entry_structured_last A name ms B s hmm hB hlo hhi h1]
      rw [hk0, Function.iterate_zero_apply]
    · have h2 : 2 ≤ ms.length := by omega
      rw [remove_current_entry_structured_not_last A name ms B s hmm hB hlo hhi h2]
      have hmslt : s - A.length - 1 < ms.length := by omega
      have hms1len : (ms.eraseIdx (s - A.length - 1)).length = ms.length - 1 := by
        rw [List.length_eraseIdx]
        simp [hmslt]
      have hms1mem : ∀ e ∈ ms.eraseIdx (s - A.length - 1), e.isMatch = true := by
        intro e he
        apply hmm
        rw [List.eraseIdx_eq_take_drop_succ] at he
        rcases List.mem_append.mp he with hx | hx
        · exact List.take_subset _ _ hx
        · exact List.drop_subset _ _ hx
      have hlo1 : A.length < if s = A.length + ms.length then s - 1 else s := by
        split
        · omega
        · omega
      have hhi1 : (if s = A.length + ms.length then s - 1 else s)
          ≤ A.length + (ms.eraseIdx (s - A.length - 1)).length := by
        rw [hms1len]
        split
        · omega
        · omega
      rw [ih A name (ms.eraseIdx (s - A.length - 1)) B
        (if s = A.length + ms.length then s - 1 else s) (by omega) hms1mem hB hlo1 hhi1]
      rw [remove_current_file_structured A name (ms.eraseIdx (s - A.length - 1)) B _
        hms1mem hB hlo1 hhi1]
      rw [remove_current_file_structured A name ms B s hmm hB hlo hhi]
      congr 1
      by_cases hE : (A ++ B).isEmpty = true
      · rw [if_pos hE, if_pos hE]
      · rw [if_neg hE, if_neg hE]
        by_cases hA0 : A.length = 0
        · have hmax : max (A.length - 1) 1 = 1 := by omega
          rw [hmax]
          by_cases hs1 : s = A.length + ms.length
          · rw [if_pos hs1]
            by_cases ha : s - 1 = 1
            · rw [if_neg (by omega), if_pos (by omega), ha]
            · rw [if_pos (by omega), if_pos (by omega)]
          · rw [if_neg hs1]
        · have hs_ne : s ≠ 1 := by omega
          have hs1_ne : (if s = A.length + ms.length then s - 1 else s) ≠ 1 := by
            split
            · omega
            · omega
          rw [if_pos hs1_ne, if_pos hs_ne]

/-- C5: with the selection on a match of a file group holding k matches,
k calls of `remove_current_entry` remove the group's header as well (the
header count drops by exactly one) and produce exactly the state of a single
direct `remove_current_file` call. -/
theorem C5_iterated_removal {rl : ResultList} {A : List EntryType} {name : String}
    {ms B : List EntryType} {s : Nat}
    (hsplit : rl.entries = A ++ (EntryType.Header name :: ms) ++ B)
    (hstate : rl.state = some s)
    (hmm : ∀ e ∈ ms, e.isMatch = true)
    (hB : B = [] ∨ (entryAt B 0).isHeader = true)
    (hlo : A.length < s) (hhi : s ≤ A.length + ms.length) :
    ResultList.remove_current_entry^[ms.length] rl = rl.remove_current_file ∧
    (ResultList.remove_current_entry^[ms.length] rl).get_number_of_file_entries + 1
      = rl.get_number_of_file_entries := by
  have hrl : rl = ⟨A ++ (EntryType.Header name :: ms) ++ B, some s⟩ := by
    have he : rl = ⟨rl.entries, rl.state⟩ := rfl
    rw [he, hsplit, hstate]
  have h1 : ResultList.remove_current_entry^[ms.length] rl = rl.remove_current_file := by
    conv_lhs => rw [hrl]
    conv_rhs => rw [hrl]
    exact iterate_remove_entry_eq_remove_file ms.length A name ms B s rfl hmm hB hlo hhi
  refine ⟨h1, ?_⟩
  rw [h1]
  have hrem : rl.remove_current_file
      = ⟨A ++ B,
         if (A ++ B).isEmpty then none
         else if s ≠ 1 then some (max (A.length - 1) 1) else some s⟩ := by
    conv_lhs => rw [hrl]
    exact remove_current_file_structured A name ms B s hmm hB hlo hhi
  have hentries : rl.remove_current_file.entries = A ++ B := by
    rw [hrem]
  unfold ResultList.get_number_of_file_entries
  rw [hentries, hsplit, headers_count_decomp A name ms B hmm, List.filter_append]
  simp
  omega

/-- C5 witness: with the selection on the first match of the two-match group
of file a, two `remove_current_entry` calls equal one `remove_current_file`
and drop the header count by one. -/
theorem C5_iterated_removal_witness :
    ResultList.remove_current_entry^[([EntryType.Match 1 "x",
        EntryType.Match 2 "y"] : List EntryType).length]
        (ResultList.mk [EntryType.Header "a", EntryType.Match 1 "x",
          EntryType.Match 2 "y", EntryType.Header "b", EntryType.Match 3 "z"]
          (some 1))
      = (ResultList.mk [EntryType.Header "a", EntryType.Match 1 "x",
          EntryType.Match 2 "y", EntryType.Header "b", EntryType.Match 3 "z"]
          (some 1)).remove_current_file ∧
    (ResultList.remove_current_entry^[([EntryType.Match 1 "x",
        EntryType.Match 2 "y"] : List EntryType).length]
        (ResultList.mk [EntryType.Header "a", EntryType.Match 1 "x",
          EntryType.Match 2 "y", EntryType.Header "b", EntryType.Match 3 "z"]
          (some 1))).get_number_of_file_entries + 1
      = (ResultList.mk [EntryType.Header "a", EntryType.Match 1 "x",
          EntryType.Match 2 "y", EntryType.Header "b", EntryType.Match 3 "z"]
          (some 1)).get_number_of_file_entries :=
  @C5_iterated_removal
    (ResultList.mk [EntryType.Header "a", EntryType.Match 1 "x",
      EntryType.Match 2 "y", EntryType.Header "b", EntryType.Match 3 "z"] (some 1))
    [] "a" [EntryType.Match 1 "x", EntryType.Match 2 "y"]
    [EntryType.Header "b", EntryType.Match 3 "z"] 1
    rfl rfl (by decide) (by decide) (by decide) (by decide)
